import Mathlib

/-!
Verification of the mod_tabledb_hdf5 table database backend.

This file gives a shallow embedding, in Lean 4, of the algorithms of the
HDF5 table database module (TdbHdf5Module.cpp, TdbHdf5Connection.cpp) and
proves properties of them.  Fallible HDF5 library calls are modelled by an
oracle (a function from a call counter to Bool) deciding which call
succeeds; C++ exceptions are modelled with Except.  Machine integers
(hsize_t, size_t) are modelled as Nat: none of the verified computations
can overflow in the source (sizes are counts of columns, rows and bytes).
-/

namespace TdbHdf5

/-- The closed error taxonomy SharemindTdbError of the module. -/
inductive TdbError where
  | OK
  | InvalidArgument
  | TableAlreadyExists
  | TableNotFound
  | IoError
  | GeneralError
  | ConsensusError
  | MissingFacility
  | UnknownError
deriving DecidableEq

namespace TdbError

/-- The loop of the commit hook of TdbHdf5Module.cpp (lines 88-102): scan
the per-party results, keeping the first non-OK code; a later, different
non-OK code yields ConsensusError and stops the scan. -/
def globalResultLoop : List TdbError → TdbError → TdbError
  | [], err => err
  | r :: rs, err =>
    if r ≠ OK then
      if err = OK then globalResultLoop rs r
      else if err ≠ r then ConsensusError
      else globalResultLoop rs err
    else globalResultLoop rs err

/-- The global result the commit hook computes from all parties' local
results (TdbHdf5Module.cpp, commit, lines 88-102). -/
def commitGlobalResult (results : List TdbError) : TdbError :=
  globalResultLoop results OK

/-- Outcome of the commit hook: the global result stored into the
transaction, and whether strategy.rollback() was invoked
(TdbHdf5Module.cpp, commit, lines 104-111). -/
def commitHook (localResult : TdbError) (results : List TdbError) :
    TdbError × Bool :=
  let g := commitGlobalResult results
  (g, decide (localResult = OK ∧ g ≠ OK))

lemma globalResultLoop_all_ok {rs : List TdbError} (err : TdbError)
    (h : ∀ r ∈ rs, r = OK) : globalResultLoop rs err = err := by
  induction rs with
  | nil => rfl
  | cons r rs ih =>
    have hr : r = OK := h r (List.mem_cons_self r rs)
    subst hr
    simp only [globalResultLoop, ne_eq, not_true_eq_false, if_false,
      reduceIte]
    exact ih fun r hr => h r (List.mem_cons_of_mem _ hr)

lemma globalResultLoop_agree {rs : List TdbError} {e : TdbError}
    (he : e ≠ OK) (h : ∀ r ∈ rs, r = OK ∨ r = e) :
    globalResultLoop rs e = e := by
  induction rs with
  | nil => rfl
  | cons r rs ih =>
    have hmem := fun r hr => h r (List.mem_cons_of_mem _ hr)
    rcases h r (List.mem_cons_self r rs) with hr | hr <;> subst hr
    · simp only [globalResultLoop, ne_eq, not_true_eq_false, if_false,
        reduceIte]
      exact ih hmem
    · simp only [globalResultLoop, ne_eq, he, not_false_eq_true, if_true,
        not_true_eq_false, if_false, reduceIte, ite_self]
      exact ih hmem

lemma globalResultLoop_conflict {rs : List TdbError} {err : TdbError}
    (herr : err ≠ OK) (h : ∃ r ∈ rs, r ≠ OK ∧ r ≠ err) :
    globalResultLoop rs err = ConsensusError := by
  induction rs with
  | nil => simp at h
  | cons r rs ih =>
    obtain ⟨w, hw, hwok, hwerr⟩ := h
    by_cases hr : r = OK
    · subst hr
      simp only [globalResultLoop, ne_eq, not_true_eq_false, if_false,
        reduceIte]
      refine ih ⟨w, ?_, hwok, hwerr⟩
      rcases List.mem_cons.mp hw with h | h
      · exact absurd h hwok
      · exact h
    · simp only [globalResultLoop, ne_eq, hr, not_false_eq_true, if_true,
        herr, if_false]
      by_cases hre : err = r
      · subst hre
        simp only [not_true_eq_false, if_false, reduceIte]
        refine ih ⟨w, ?_, hwok, hwerr⟩
        rcases List.mem_cons.mp hw with h | h
        · exact absurd h hwerr
        · exact h
      · simp [hre]

end TdbError

/-- C2: Consensus commit rule.  For every non-empty list of per-party
result codes, the commit hook computes the global result as OK if every
code is OK, otherwise the unique non-OK code if all non-OK codes agree,
otherwise ConsensusError; for (OK, OK, IoError) the global result is
IoError, for (OK, IoError, TableNotFound) it is ConsensusError; and
rollback() is invoked exactly when the local result is OK and the global
result is not. -/
theorem commit_consensus_rule (rs : List TdbError) (hne : rs ≠ []) :
    ((∀ r ∈ rs, r = TdbError.OK) →
      TdbError.commitGlobalResult rs = TdbError.OK) ∧
    (∀ e, e ≠ TdbError.OK → e ∈ rs → (∀ r ∈ rs, r = TdbError.OK ∨ r = e) →
      TdbError.commitGlobalResult rs = e) ∧
    ((∃ e₁ ∈ rs, ∃ e₂ ∈ rs, e₁ ≠ TdbError.OK ∧ e₂ ≠ TdbError.OK ∧ e₁ ≠ e₂) →
      TdbError.commitGlobalResult rs = TdbError.ConsensusError) ∧
    TdbError.commitGlobalResult
      [TdbError.OK, TdbError.OK, TdbError.IoError] = TdbError.IoError ∧
    TdbError.commitGlobalResult
      [TdbError.OK, TdbError.IoError, TdbError.TableNotFound] =
        TdbError.ConsensusError ∧
    (∀ loc, (TdbError.commitHook loc rs).2 = true ↔
      (loc = TdbError.OK ∧ (TdbError.commitHook loc rs).1 ≠ TdbError.OK)) := by
  refine ⟨fun h => TdbError.globalResultLoop_all_ok _ h, ?_, ?_, by decide,
    by decide, ?_⟩
  · intro e he hmem hall
    unfold TdbError.commitGlobalResult
    clear hne
    induction rs with
    | nil => simp at hmem
    | cons r rs ih =>
      rcases hall r (List.mem_cons_self r rs) with hr | hr <;> subst hr
      · simp only [TdbError.globalResultLoop, ne_eq, not_true_eq_false,
          if_false, reduceIte]
        rcases List.mem_cons.mp hmem with h | h
        · exact absurd h he
        · exact ih h fun r hr => hall r (List.mem_cons_of_mem _ hr)
      · simp only [TdbError.globalResultLoop, ne_eq, he, not_false_eq_true,
          if_true, reduceIte]
        exact TdbError.globalResultLoop_agree he
          fun r hr => hall r (List.mem_cons_of_mem _ hr)
  · rintro ⟨e₁, h₁, e₂, h₂, hok₁, hok₂, hne₁₂⟩
    unfold TdbError.commitGlobalResult
    clear hne
    induction rs with
    | nil => simp at h₁
    | cons r rs ih =>
      by_cases hr : r = TdbError.OK
      · subst hr
        simp only [TdbError.globalResultLoop, ne_eq, not_true_eq_false,
          if_false, reduceIte]
        have h₁' : e₁ ∈ rs := by
          rcases List.mem_cons.mp h₁ with h | h
          · exact absurd h hok₁
          · exact h
        have h₂' : e₂ ∈ rs := by
          rcases List.mem_cons.mp h₂ with h | h
          · exact absurd h hok₂
          · exact h
        exact ih h₁' h₂'
      · simp only [TdbError.globalResultLoop, ne_eq, hr, not_false_eq_true,
          if_true, not_true_eq_false, if_false, reduceIte]
        have hconf : ∃ w ∈ rs, w ≠ TdbError.OK ∧ w ≠ r := by
          by_cases he₁ : e₁ = r
          · subst he₁
            refine ⟨e₂, ?_, hok₂, fun h => hne₁₂ h.symm⟩
            rcases List.mem_cons.mp h₂ with h | h
            · exact absurd h (fun hh => hne₁₂ hh.symm)
            · exact h
          · refine ⟨e₁, ?_, hok₁, he₁⟩
            rcases List.mem_cons.mp h₁ with h | h
            · exact absurd h he₁
            · exact h
        exact TdbError.globalResultLoop_conflict hr hconf
  · intro loc
    simp [TdbError.commitHook]

/-- Closed witness for commit_consensus_rule at the concrete party results
(OK, OK, IoError). -/
theorem commit_consensus_rule_witness :
    TdbError.commitGlobalResult
      [TdbError.OK, TdbError.OK, TdbError.IoError] = TdbError.IoError :=
  (commit_consensus_rule
      [TdbError.OK, TdbError.OK, TdbError.IoError]
      (by decide)).2.2.2.1

/-- Result of a run of TdbHdf5Module::executeTransaction: the returned
error code, whether strategy.execute() ran, and whether
strategy.rollback() ran. -/
structure TransactionRun where
  result : TdbError
  executed : Bool
  rolledBack : Bool
deriving DecidableEq

/-- TdbHdf5Module::executeTransaction (TdbHdf5Module.cpp lines 358-397).
consensusService: whether m_consensusService is non-null.
processFacility: none models the ProcessFacility being absent from the
syscall context; some none models pf.globalId returning null; some
(some guid) a usable global identifier.  localCode is what
strategy.execute() returns; partyResults are the result codes the
consensus facility hands to the commit hook; proposeOk is whether
blocking_propose returns SHAREMIND_CONSENSUS_FACILITY_OK (otherwise the
wrapper throws, modelled as Except.error). -/
def executeTransaction (consensusService : Bool)
    (processFacility : Option (Option (List Nat)))
    (localCode : TdbError) (partyResults : List TdbError)
    (proposeOk : Bool) : Except Unit TransactionRun :=
  if consensusService then
    match processFacility with
    | none => .ok ⟨TdbError.MissingFacility, false, false⟩
    | some none => .ok ⟨localCode, true, false⟩
    | some (some _) =>
        let gr := TdbError.commitHook localCode partyResults
        if proposeOk then .ok ⟨gr.1, true, gr.2⟩ else .error ()
  else .ok ⟨localCode, true, false⟩

/-- C6 counterexample: with the consensus facility available but the
ProcessFacility absent from the syscall context (so no process identifier
can be obtained), executeTransaction returns MissingFacility without
executing the operation, although the operation would locally return OK —
contradicting the claim that it runs the operation locally and returns
the local result. -/
theorem executeTransaction_missing_facility_not_local :
    executeTransaction true none TdbError.OK [] true =
      .ok ⟨TdbError.MissingFacility, false, false⟩ ∧
    TdbError.MissingFacility ≠ TdbError.OK := by
  exact ⟨rfl, by decide⟩

/-- C6 (amended): if the consensus facility is unavailable, or the
facility is available and pf.globalId yields no identifier,
executeTransaction runs the operation locally without coordination and
returns its local result; but if the consensus facility is available and
the ProcessFacility itself is absent, it returns MissingFacility without
executing the operation. -/
theorem executeTransaction_degenerate_mode
    (pf : Option (Option (List Nat))) (localCode : TdbError)
    (partyResults : List TdbError) (proposeOk : Bool) :
    executeTransaction false pf localCode partyResults proposeOk =
      .ok ⟨localCode, true, false⟩ ∧
    (∀ consensusService,
      executeTransaction consensusService (some none) localCode
          partyResults proposeOk = .ok ⟨localCode, true, false⟩) ∧
    executeTransaction true none localCode partyResults proposeOk =
      .ok ⟨TdbError.MissingFacility, false, false⟩ := by
  refine ⟨rfl, fun c => ?_, rfl⟩
  cases c <;> rfl

/-- boost::filesystem path decomposition of a directory entry filename:
the extension is the substring starting at the rightmost dot (the stem is
the rest), except that a filename that is ".", ".." or dotless has an
empty extension. -/
def extSplit (l : List Char) : List Char × List Char :=
  if l = ['.'] ∨ l = ['.', '.'] ∨ '.' ∉ l then (l, [])
  else
    let r := l.reverse
    let pre := r.takeWhile (· ≠ '.')
    (((r.drop pre.length).drop 1).reverse, '.' :: pre.reverse)

/-- filepath.extension().string() of a directory entry. -/
def extensionString (f : String) : String := String.mk (extSplit f.data).2

/-- filepath.stem().string() of a directory entry. -/
def stemString (f : String) : String := String.mk (extSplit f.data).1

/-- The directory scan loop of TdbHdf5Connection::tblNames
(TdbHdf5Connection.cpp lines 238-266): one oracle draw per directory
entry models the iterator advance and string allocation, either of which
may throw a C++ exception (Except.error); matching entries contribute
their stem, in directory order. -/
def tblNamesGo (oracle : Nat → Bool) : List String → Nat →
    Except Unit (List String)
  | [], _ => .ok []
  | f :: fs, ctr =>
    if oracle ctr then
      match tblNamesGo oracle fs (ctr + 1) with
      | .error e => .error e
      | .ok names =>
          .ok (if extensionString f = ".h5" then stemString f :: names
               else names)
    else .error ()

/-- TdbHdf5Connection::tblNames over the list of directory entries: the
only return statement carrying an error code yields SHAREMIND_TDB_OK;
every failure path is a rethrown exception. -/
def tblNames (entries : List String) (oracle : Nat → Bool) :
    Except Unit (TdbError × List String) :=
  (tblNamesGo oracle entries 0).map fun ns => (TdbError.OK, ns)

lemma tblNamesGo_ok {oracle : Nat → Bool} :
    ∀ (fs : List String) (ctr : Nat) (ns : List String),
    tblNamesGo oracle fs ctr = .ok ns →
    ns = (fs.filter fun f => extensionString f = ".h5").map stemString := by
  intro fs
  induction fs with
  | nil => intro ctr ns h; cases h; rfl
  | cons f fs ih =>
    intro ctr ns h
    simp only [tblNamesGo] at h
    by_cases ho : oracle ctr
    · rw [if_pos ho] at h
      cases hgo : tblNamesGo oracle fs (ctr + 1) with
      | error e => rw [hgo] at h; cases h
      | ok names =>
        rw [hgo] at h
        have hns := ih (ctr + 1) names hgo
        by_cases hf : extensionString f = ".h5"
        · simp only [hf, if_true, reduceIte] at h
          cases h
          simp [List.filter, hf, hns]
        · simp only [hf, if_false, reduceIte] at h
          cases h
          simp [List.filter, hf, hns]
    · rw [if_neg ho] at h; cases h

/-- C10: every execution of tblNames that returns (i.e. does not
propagate a C++ exception) yields the code OK together with one name per
directory entry whose extension is ".h5", the name being the file stem;
no non-OK code of the error taxonomy is ever produced. -/
theorem tblNames_ok_and_stems (entries : List String) (oracle : Nat → Bool)
    (res : TdbError × List String)
    (h : tblNames entries oracle = .ok res) :
    res.1 = TdbError.OK ∧
    res.2 = (entries.filter fun f => extensionString f = ".h5").map
      stemString := by
  unfold tblNames at h
  cases hgo : tblNamesGo oracle entries 0 with
  | error e => rw [hgo] at h; cases h
  | ok ns =>
    rw [hgo] at h
    cases h
    exact ⟨rfl, tblNamesGo_ok entries 0 ns hgo⟩

/-- Closed witness for tblNames_ok_and_stems on a concrete directory
listing. -/
theorem tblNames_ok_and_stems_witness :
    (TdbError.OK, ["a", "c"]).1 = TdbError.OK ∧
    (TdbError.OK, ["a", "c"]).2 =
      (["a.h5", "b.txt", "c.h5"].filter
        fun f => extensionString f = ".h5").map stemString :=
  tblNames_ok_and_stems ["a.h5", "b.txt", "c.h5"] (fun _ => true)
    (TdbError.OK, ["a", "c"]) (by rfl)

/-- SharemindTdbType: a column type triple (domain, name, size); size 0
marks a variable-length type. -/
structure TdbType where
  domain : String
  name : String
  size : Nat
deriving DecidableEq

/-- isVariableLengthType (TdbHdf5Connection.cpp line 152). -/
def isVariableLengthType (t : TdbType) : Bool := t.size = 0

/-- The element byte size used for chunk computation in tblCreate
(line 564): type size for fixed-length types, sizeof(hvl_t) = 16 on the
64-bit target for variable-length ones. -/
def elemSize (t : TdbType) : Nat := if t.size = 0 then 16 else t.size

lemma stringData_eq : ∀ {s t : String}, s.data = t.data → s = t := by
  intro s t h
  cases s
  cases t
  exact congrArg String.mk h

/-- SharemindTdbTypeLess (TdbHdf5Connection.cpp lines 140-150): strict
lexicographic order on (domain, name, size); the strings are compared
as their character sequences, matching strcmp. -/
def typeLess (a b : TdbType) : Prop :=
  a.domain.data < b.domain.data ∨
    (a.domain = b.domain ∧
      (a.name.data < b.name.data ∨ (a.name = b.name ∧ a.size < b.size)))

instance (a b : TdbType) : Decidable (typeLess a b) := by
  unfold typeLess; infer_instance

lemma typeLess_irrefl (a : TdbType) : ¬ typeLess a a := by
  unfold typeLess
  simp [lt_irrefl]

lemma typeLess_trans {a b c : TdbType} (h₁ : typeLess a b)
    (h₂ : typeLess b c) : typeLess a c := by
  unfold typeLess at *
  rcases h₁ with h₁ | ⟨hd₁, h₁⟩
  · rcases h₂ with h₂ | ⟨hd₂, _⟩
    · exact Or.inl (lt_trans h₁ h₂)
    · exact Or.inl (hd₂ ▸ h₁)
  · rcases h₂ with h₂ | ⟨hd₂, h₂⟩
    · exact Or.inl (hd₁ ▸ h₂)
    · refine Or.inr ⟨hd₁.trans hd₂, ?_⟩
      rcases h₁ with h₁ | ⟨hn₁, h₁⟩
      · rcases h₂ with h₂ | ⟨hn₂, _⟩
        · exact Or.inl (lt_trans h₁ h₂)
        · exact Or.inl (hn₂ ▸ h₁)
      · rcases h₂ with h₂ | ⟨hn₂, h₂⟩
        · exact Or.inl (hn₁ ▸ h₂)
        · exact Or.inr ⟨hn₁.trans hn₂, lt_trans h₁ h₂⟩

lemma typeLess_total_eq {a b : TdbType} (h₁ : ¬ typeLess a b)
    (h₂ : ¬ typeLess b a) : a = b := by
  unfold typeLess at h₁ h₂
  have hd : a.domain = b.domain := by
    rcases lt_trichotomy a.domain.data b.domain.data with h | h | h
    · exact absurd (Or.inl h) h₁
    · exact stringData_eq h
    · exact absurd (Or.inl h) h₂
  have hn : a.name = b.name := by
    rcases lt_trichotomy a.name.data b.name.data with h | h | h
    · exact absurd (Or.inr ⟨hd, Or.inl h⟩) h₁
    · exact stringData_eq h
    · exact absurd (Or.inr ⟨hd.symm, Or.inl h⟩) h₂
  have hs : a.size = b.size := by
    rcases lt_trichotomy a.size b.size with h | h | h
    · exact absurd (Or.inr ⟨hd, Or.inr ⟨hn, h⟩⟩) h₁
    · exact h
    · exact absurd (Or.inr ⟨hd.symm, Or.inr ⟨hn.symm, h⟩⟩) h₂
  cases a; cases b
  simp_all

/-- Insertion into the ordered std::map of tblCreate keyed by
SharemindTdbTypeLess: typeMap.emplace(type, 1) bumps the count of an
equivalent key (TdbHdf5Connection.cpp lines 363-366). -/
def typeMapInsert (t : TdbType) : List (TdbType × Nat) → List (TdbType × Nat)
  | [] => [(t, 1)]
  | (u, c) :: us =>
    if typeLess t u then (t, 1) :: (u, c) :: us
    else if typeLess u t then (u, c) :: typeMapInsert t us
    else (u, c + 1) :: us

/-- The per-type column-count map built by iterating the given column
types in input order (TdbHdf5Connection.cpp lines 363-371); iteration of
the result is in ascending key order, as for std::map. -/
def buildTypeMap (types : List TdbType) : List (TdbType × Nat) :=
  types.foldl (fun acc t => typeMapInsert t acc) []

/-- std::map lookup on the association-list model. -/
def typeMapFind (t : TdbType) : List (TdbType × Nat) → Option Nat
  | [] => none
  | (u, c) :: us => if u = t then some c else typeMapFind t us

/-- The per-type dataset created by tblCreate, with its creation-time
dataspace dimensions, the extensibility of both dimensions, and chunk
dimensions (TdbHdf5Connection.cpp lines 560-645). -/
structure CreatedDataset where
  dtype : TdbType
  dims : Nat × Nat
  maxdimsUnlimited : Bool × Bool
  chunk : Nat × Nat
deriving DecidableEq

/-- The per-type dataset as created for a type with k columns: shape
[0, k], both maxdims H5S_UNLIMITED, chunk [max(4096/elemSize, 1), 1]
(lines 573-575 and 583-588). -/
def mkTypeDataset (t : TdbType) (k : Nat) : CreatedDataset :=
  ⟨t, (0, k), (true, true), (max (4096 / elemSize t) 1, 1)⟩

/-- The contents of a table file as far as these claims observe it. -/
structure FileData where
  rowCountAttr : Option Nat
  typeDatasets : List CreatedDataset
  colIndexLen : Option Nat
deriving DecidableEq

/-- The observable state of a TdbHdf5Connection: the backing directory
(files by table name) and the m_tableFiles cached-handle map. -/
structure ConnState where
  files : String → Option FileData
  handles : String → Bool

/-- TdbHdf5Connection::validateTableName (lines 2031-2041): only empty
names are rejected. -/
def validateTableName (tbl : String) : Bool := tbl ≠ ""

/-- TdbHdf5Connection::validateColumnNames (lines 2013-2029): each name
must be non-empty and at most 64 bytes. -/
def validateColumnNames (names : List String) : Bool :=
  names.all fun n => n ≠ "" && n.length ≤ 64

/-- One fallible HDF5 call: consume one oracle draw, failing with the
given error code. -/
def draw (oracle : Nat → Bool) (ctr : Nat) (err : TdbError) :
    Except TdbError Nat :=
  if oracle ctr then .ok (ctr + 1) else .error err

/-- A run of k consecutive fallible HDF5 calls sharing an error code. -/
def draws (oracle : Nat → Bool) (ctr : Nat) : Nat → TdbError →
    Except TdbError Nat
  | 0, _ => .ok ctr
  | k + 1, err =>
    if oracle ctr then draws oracle (ctr + 1) k err else .error err

/-- The HDF5 memory-type creation loop of tblCreate (lines 390-429): per
unique type one call (H5Tvlen_create or H5Tcreate), plus H5Tset_tag for
fixed-length types; each failure is SHAREMIND_TDB_GENERAL_ERROR. -/
def createMemTypes (oracle : Nat → Bool) :
    List (TdbType × Nat) → Nat → Except TdbError Nat
  | [], ctr => .ok ctr
  | (t, _) :: ts, ctr =>
    if oracle ctr then
      if isVariableLengthType t then createMemTypes oracle ts (ctr + 1)
      else if oracle (ctr + 1) then createMemTypes oracle ts (ctr + 2)
      else .error TdbError.GeneralError
    else .error TdbError.GeneralError

/-- The per-unique-type dataset creation loop of tblCreate (lines
560-645): H5Pset_chunk, H5Screate_simple, H5Dcreate, attribute dataspace
and H5Acreate (five calls failing with GeneralError), then H5Awrite of
the type attribute (failing with IoError).  Returns the created datasets
in map iteration order. -/
def createDatasets (oracle : Nat → Bool) :
    List (TdbType × Nat) → Nat → Except TdbError (Nat × List CreatedDataset)
  | [], ctr => .ok (ctr, [])
  | (t, k) :: ts, ctr =>
    match draws oracle ctr 5 TdbError.GeneralError with
    | .error e => .error e
    | .ok c₁ =>
      match draw oracle c₁ TdbError.IoError with
      | .error e => .error e
      | .ok c₂ =>
        match createDatasets oracle ts c₂ with
        | .error e => .error e
        | .ok (c₃, ds) => .ok (c₃, mkTypeDataset t k :: ds)

/-- The body of tblCreate between the successful H5Fcreate and the final
flush (lines 357-777), every step of which only touches the newly
created file: memory-type creation; meta group with its row_count
attribute (4 calls); the committed dataset-type attribute type (7
calls); the per-type datasets; the committed column-index type, its
dataset (10 calls) and, for a non-empty schema, one H5Rcreate per column
followed by the H5Dwrite of the index (IoError). -/
def tblCreateBody (oracle : Nat → Bool) (ctr : Nat) (names : List String)
    (types : List TdbType) : Except TdbError FileData :=
  match createMemTypes oracle (buildTypeMap types) ctr with
  | .error e => .error e
  | .ok c₁ =>
    match draws oracle c₁ 4 TdbError.GeneralError with
    | .error e => .error e
    | .ok c₂ =>
      match draws oracle c₂ 7 TdbError.GeneralError with
      | .error e => .error e
      | .ok c₃ =>
        match createDatasets oracle (buildTypeMap types) c₃ with
        | .error e => .error e
        | .ok (c₄, dsets) =>
          match draws oracle c₄ 10 TdbError.GeneralError with
          | .error e => .error e
          | .ok c₅ =>
            if 0 < names.length then
              match draws oracle c₅ names.length TdbError.GeneralError with
              | .error e => .error e
              | .ok ca =>
                match draw oracle ca TdbError.IoError with
                | .error e => .error e
                | .ok _ => .ok ⟨some 0, dsets, some names.length⟩
            else .ok ⟨some 0, dsets, some names.length⟩

/-- TdbHdf5Connection::tblCreate (TdbHdf5Connection.cpp lines 268-797)
over the connection state.  Returns the error code, the new state, and
the list of arguments of the closeTableFile calls made.  The oracle
draws are: pathExists (draw 0, a filesystem error throws inside
pathExists which returns false, mapped to GeneralError), H5Fcreate
(draw 1, IoError), then the body.  On any body failure the scope-exit
rollback closes the file handle and removes the file. -/
def tblCreate (st : ConnState) (tbl : String) (names : List String)
    (types : List TdbType) (oracle : Nat → Bool) :
    TdbError × ConnState × List String :=
  if names = [] then (TdbError.InvalidArgument, st, [])
  else if types = [] then (TdbError.InvalidArgument, st, [])
  else if names.length ≠ types.length then (TdbError.InvalidArgument, st, [])
  else if ¬ validateTableName tbl then (TdbError.InvalidArgument, st, [])
  else if ¬ validateColumnNames names then (TdbError.InvalidArgument, st, [])
  else if ¬ names.Nodup then (TdbError.InvalidArgument, st, [])
  else if ¬ oracle 0 then (TdbError.GeneralError, st, [])
  else if (st.files tbl).isSome then (TdbError.TableAlreadyExists, st, [])
  else if ¬ oracle 1 then
    (TdbError.IoError,
      ⟨st.files, fun n => if n = tbl then false else st.handles n⟩, [tbl])
  else
    match tblCreateBody oracle 2 names types with
    | .error e =>
        (e, ⟨fun n => if n = tbl then none else st.files n,
             fun n => if n = tbl then false else st.handles n⟩, [tbl])
    | .ok fd =>
        (TdbError.OK,
          ⟨fun n => if n = tbl then some fd else st.files n,
           fun n => if n = tbl then true
                    else if n = tbl then false else st.handles n⟩, [tbl])

/-- TdbHdf5Connection::tblDelete (TdbHdf5Connection.cpp lines 799-821):
validate the name, then boost::filesystem::remove on the table path
(draw 0: a filesystem_error maps to IoError); remove returning false
means the file did not exist (TableNotFound).  The cached-handle map is
never consulted and closeTableFile is never called. -/
def tblDelete (st : ConnState) (tbl : String) (oracle : Nat → Bool) :
    TdbError × ConnState × List String :=
  if ¬ validateTableName tbl then (TdbError.InvalidArgument, st, [])
  else if ¬ oracle 0 then (TdbError.IoError, st, [])
  else
    match st.files tbl with
    | none => (TdbError.TableNotFound, st, [])
    | some _ =>
        (TdbError.OK,
          ⟨fun n => if n = tbl then none else st.files n, st.handles⟩, [])

/-- C5 counterexample: a connection caching a dangling handle for table
"t" whose file no longer exists.  tblDelete returns TableNotFound but
leaves the cached handle in the table-file map (and performs no
closeTableFile call), contradicting the claim that the handle map is
free of an entry for tbl afterwards. -/
theorem tblDelete_keeps_dangling_handle :
    (tblDelete ⟨fun _ => none, fun n => n = "t"⟩ "t" (fun _ => true)).1 =
      TdbError.TableNotFound ∧
    (tblDelete ⟨fun _ => none, fun n => n = "t"⟩ "t"
      (fun _ => true)).2.1.handles "t" = true ∧
    (tblDelete ⟨fun _ => none, fun n => n = "t"⟩ "t"
      (fun _ => true)).2.2 = [] := by
  refine ⟨rfl, by decide, rfl⟩

/-- C5 (amended): tblDelete validates the name and unlinks the table
file, returning TableNotFound if no such file exists; it never touches
the Connection's cached-handle map (a dangling handle for tbl, if any,
remains; tblCreate removes such dangling handles later) and never calls
closeTableFile. -/
theorem tblDelete_behavior (st : ConnState) (tbl : String)
    (oracle : Nat → Bool) :
    (tblDelete st tbl oracle).2.1.handles = st.handles ∧
    (tblDelete st tbl oracle).2.2 = [] ∧
    (validateTableName tbl = true → oracle 0 = true →
      st.files tbl = none →
      (tblDelete st tbl oracle).1 = TdbError.TableNotFound) ∧
    (∀ fd, validateTableName tbl = true → oracle 0 = true →
      st.files tbl = some fd →
      (tblDelete st tbl oracle).1 = TdbError.OK ∧
      (tblDelete st tbl oracle).2.1.files tbl = none) := by
  by_cases hv : validateTableName tbl = true
  · by_cases ho : oracle 0 = true
    · cases hf : st.files tbl with
      | none =>
        have he : tblDelete st tbl oracle = (TdbError.TableNotFound, st, [])
          := by
          unfold tblDelete
          rw [if_neg (not_not_intro hv), if_neg (not_not_intro ho), hf]
        rw [he]
        refine ⟨rfl, rfl, fun _ _ _ => rfl, fun fd _ _ hfd => ?_⟩
        simp at hfd
      | some fd₀ =>
        have he : tblDelete st tbl oracle =
            (TdbError.OK,
              ⟨fun n => if n = tbl then none else st.files n, st.handles⟩,
              []) := by
          unfold tblDelete
          rw [if_neg (not_not_intro hv), if_neg (not_not_intro ho), hf]
        rw [he]
        refine ⟨rfl, rfl, fun _ _ hnone => ?_, fun fd' _ _ _ => ⟨rfl, ?_⟩⟩
        · simp at hnone
        · simp
    · have he : tblDelete st tbl oracle = (TdbError.IoError, st, []) := by
        unfold tblDelete
        rw [if_neg (not_not_intro hv), if_pos ho]
      rw [he]
      exact ⟨rfl, rfl, fun _ ho' => absurd ho' ho,
        fun fd _ ho' => absurd ho' ho⟩
  · have he : tblDelete st tbl oracle = (TdbError.InvalidArgument, st, [])
      := by
      unfold tblDelete
      rw [if_pos hv]
    rw [he]
    exact ⟨rfl, rfl, fun hv' => absurd hv' hv, fun fd hv' => absurd hv' hv⟩

/-- Closed witness for tblDelete_behavior: deleting a missing table from
an empty directory reports TableNotFound. -/
theorem tblDelete_behavior_witness :
    (tblDelete ⟨fun _ => none, fun _ => false⟩ "u"
      (fun _ => true)).1 = TdbError.TableNotFound :=
  (tblDelete_behavior ⟨fun _ => none, fun _ => false⟩ "u"
    (fun _ => true)).2.2.1 (by decide) rfl rfl

/-- Exhaustive case analysis of a tblCreate run: either it fails fast
before touching any file (validation, pathExists, the duplicate check or
the existence check), or the H5Fcreate fails, or the body fails and the
creation rollback removes the file, or it succeeds. -/
lemma tblCreate_outcomes (st : ConnState) (tbl : String)
    (names : List String) (types : List TdbType) (oracle : Nat → Bool) :
    (∃ e, tblCreate st tbl names types oracle = (e, st, []) ∧
       e ≠ TdbError.OK) ∨
    (validateTableName tbl = true ∧ st.files tbl = none ∧
      tblCreate st tbl names types oracle =
        (TdbError.IoError,
          ⟨st.files, fun n => if n = tbl then false else st.handles n⟩,
          [tbl])) ∨
    (validateTableName tbl = true ∧ st.files tbl = none ∧
      ∃ e, tblCreateBody oracle 2 names types = .error e ∧
        tblCreate st tbl names types oracle =
          (e, ⟨fun n => if n = tbl then none else st.files n,
               fun n => if n = tbl then false else st.handles n⟩, [tbl])) ∨
    (validateTableName tbl = true ∧ st.files tbl = none ∧
      ∃ fd, tblCreateBody oracle 2 names types = .ok fd ∧
        tblCreate st tbl names types oracle =
          (TdbError.OK,
            ⟨fun n => if n = tbl then some fd else st.files n,
             fun n => if n = tbl then true
                      else if n = tbl then false else st.handles n⟩,
            [tbl])) := by
  by_cases h₁ : names = []
  · exact Or.inl ⟨TdbError.InvalidArgument,
      by unfold tblCreate; rw [if_pos h₁], by decide⟩
  by_cases h₂ : types = []
  · exact Or.inl ⟨TdbError.InvalidArgument,
      by unfold tblCreate; rw [if_neg h₁, if_pos h₂], by decide⟩
  by_cases h₃ : names.length = types.length
  case neg =>
    exact Or.inl ⟨TdbError.InvalidArgument,
      by unfold tblCreate; rw [if_neg h₁, if_neg h₂, if_pos h₃], by decide⟩
  by_cases h₄ : validateTableName tbl = true
  case neg =>
    exact Or.inl ⟨TdbError.InvalidArgument,
      by unfold tblCreate
         rw [if_neg h₁, if_neg h₂, if_neg (not_not_intro h₃), if_pos h₄],
      by decide⟩
  by_cases h₅ : validateColumnNames names = true
  case neg =>
    exact Or.inl ⟨TdbError.InvalidArgument,
      by unfold tblCreate
         rw [if_neg h₁, if_neg h₂, if_neg (not_not_intro h₃),
           if_neg (not_not_intro h₄), if_pos h₅],
      by decide⟩
  by_cases h₆ : names.Nodup
  case neg =>
    exact Or.inl ⟨TdbError.InvalidArgument,
      by unfold tblCreate
         rw [if_neg h₁, if_neg h₂, if_neg (not_not_intro h₃),
           if_neg (not_not_intro h₄), if_neg (not_not_intro h₅), if_pos h₆],
      by decide⟩
  by_cases h₇ : oracle 0 = true
  case neg =>
    exact Or.inl ⟨TdbError.GeneralError,
      by unfold tblCreate
         rw [if_neg h₁, if_neg h₂, if_neg (not_not_intro h₃),
           if_neg (not_not_intro h₄), if_neg (not_not_intro h₅),
           if_neg (not_not_intro h₆), if_pos h₇],
      by decide⟩
  by_cases h₈ : (st.files tbl).isSome = true
  · exact Or.inl ⟨TdbError.TableAlreadyExists,
      by unfold tblCreate
         rw [if_neg h₁, if_neg h₂, if_neg (not_not_intro h₃),
           if_neg (not_not_intro h₄), if_neg (not_not_intro h₅),
           if_neg (not_not_intro h₆), if_neg (not_not_intro h₇), if_pos h₈],
      by decide⟩
  have hnone : st.files tbl = none := Option.not_isSome_iff_eq_none.mp h₈
  by_cases h₉ : oracle 1 = true
  case neg =>
    refine Or.inr (Or.inl ⟨h₄, hnone, ?_⟩)
    unfold tblCreate
    rw [if_neg h₁, if_neg h₂, if_neg (not_not_intro h₃),
      if_neg (not_not_intro h₄), if_neg (not_not_intro h₅),
      if_neg (not_not_intro h₆), if_neg (not_not_intro h₇), if_neg h₈,
      if_pos h₉]
  have hrun : tblCreate st tbl names types oracle =
      match tblCreateBody oracle 2 names types with
      | .error e =>
          (e, ⟨fun n => if n = tbl then none else st.files n,
               fun n => if n = tbl then false else st.handles n⟩, [tbl])
      | .ok fd =>
          (TdbError.OK,
            ⟨fun n => if n = tbl then some fd else st.files n,
             fun n => if n = tbl then true
                      else if n = tbl then false else st.handles n⟩,
            [tbl]) := by
    unfold tblCreate
    rw [if_neg h₁, if_neg h₂, if_neg (not_not_intro h₃),
      if_neg (not_not_intro h₄), if_neg (not_not_intro h₅),
      if_neg (not_not_intro h₆), if_neg (not_not_intro h₇), if_neg h₈,
      if_neg (not_not_intro h₉)]
  cases hbody : tblCreateBody oracle 2 names types with
  | error e =>
    refine Or.inr (Or.inr (Or.inl ⟨h₄, hnone, e, rfl, ?_⟩))
    rw [hrun, hbody]
  | ok fd =>
    refine Or.inr (Or.inr (Or.inr ⟨h₄, hnone, fd, rfl, ?_⟩))
    rw [hrun, hbody]

/-- A tblCreate run that reaches the existence check with the file
present returns TableAlreadyExists at once. -/
lemma tblCreate_already_exists (st : ConnState) (tbl : String)
    (names : List String) (types : List TdbType) (oracle : Nat → Bool)
    (h₁ : names ≠ []) (h₂ : types ≠ [])
    (h₃ : names.length = types.length)
    (h₄ : validateTableName tbl = true)
    (h₅ : validateColumnNames names = true) (h₆ : names.Nodup)
    (h₇ : oracle 0 = true) (h₈ : (st.files tbl).isSome = true) :
    tblCreate st tbl names types oracle =
      (TdbError.TableAlreadyExists, st, []) := by
  unfold tblCreate
  rw [if_neg h₁, if_neg h₂, if_neg (not_not_intro h₃),
    if_neg (not_not_intro h₄), if_neg (not_not_intro h₅),
    if_neg (not_not_intro h₆), if_neg (not_not_intro h₇), if_pos h₈]

/-- C3: creation atomicity of tblCreate.  Whenever tblCreate returns a
non-OK code the directory is unchanged: a failure after file creation
triggers the installed rollback (close the handle, remove the file), and
a failure because a file of that name already exists returns
TableAlreadyExists before any file operation, leaving the pre-existing
file untouched. -/
theorem tblCreate_creation_atomicity (st : ConnState) (tbl : String)
    (names : List String) (types : List TdbType) (oracle : Nat → Bool) :
    ((tblCreate st tbl names types oracle).1 ≠ TdbError.OK →
      (tblCreate st tbl names types oracle).2.1.files = st.files) ∧
    (∀ fd, st.files tbl = some fd →
      names ≠ [] → types ≠ [] → names.length = types.length →
      validateTableName tbl = true → validateColumnNames names = true →
      names.Nodup → oracle 0 = true →
      (tblCreate st tbl names types oracle).1 =
        TdbError.TableAlreadyExists ∧
      (tblCreate st tbl names types oracle).2.1.files tbl = some fd) := by
  constructor
  · rcases tblCreate_outcomes st tbl names types oracle with
      ⟨e, heq, _⟩ | ⟨_, _, heq⟩ | ⟨_, hnone, e, _, heq⟩ | ⟨_, _, fd, _, heq⟩
    · rw [heq]; exact fun _ => rfl
    · rw [heq]; exact fun _ => rfl
    · rw [heq]
      intro _
      funext n
      by_cases hn : n = tbl
      · subst hn
        simp only [if_pos rfl]
        exact hnone.symm
      · simp only [if_neg hn]
    · rw [heq]; exact fun h => absurd rfl h
  · intro fd hfd hn ht hl hv hc hd ho
    have he := tblCreate_already_exists st tbl names types oracle hn ht hl
      hv hc hd ho (by rw [hfd]; rfl)
    rw [he]
    exact ⟨rfl, hfd⟩

/-- Closed witness for tblCreate_creation_atomicity: creating a table
over an existing file of the same name reports TableAlreadyExists and
the pre-existing file data survives untouched. -/
theorem tblCreate_creation_atomicity_witness :
    (tblCreate
        ⟨fun n => if n = "t" then some ⟨some 0, [], some 1⟩ else none,
         fun _ => false⟩
        "t" ["a"] [⟨"d", "u8", 1⟩] (fun _ => true)).1 =
      TdbError.TableAlreadyExists ∧
    (tblCreate
        ⟨fun n => if n = "t" then some ⟨some 0, [], some 1⟩ else none,
         fun _ => false⟩
        "t" ["a"] [⟨"d", "u8", 1⟩] (fun _ => true)).2.1.files "t" =
      some ⟨some 0, [], some 1⟩ :=
  (tblCreate_creation_atomicity
      ⟨fun n => if n = "t" then some ⟨some 0, [], some 1⟩ else none,
       fun _ => false⟩
      "t" ["a"] [⟨"d", "u8", 1⟩] (fun _ => true)).2
    ⟨some 0, [], some 1⟩ (by decide) (by decide) (by decide) (by decide)
    (by decide) (by decide) (by decide) rfl

/-- C9: every closeTableFile call the program makes passes a non-empty
table name, so the entry assertion in its non-empty form, assert of not
tbl.empty(), holds on every call.  The only call site is tblCreate,
reached only after validateTableName has accepted the name. -/
theorem closeTableFile_calls_nonempty (st : ConnState) (tbl : String)
    (names : List String) (types : List TdbType) (oracle : Nat → Bool) :
    ∀ n ∈ (tblCreate st tbl names types oracle).2.2, n ≠ "" := by
  have hne : validateTableName tbl = true → tbl ≠ "" := by
    unfold validateTableName
    exact fun h => of_decide_eq_true h
  rcases tblCreate_outcomes st tbl names types oracle with
    ⟨e, heq, _⟩ | ⟨hv, _, heq⟩ | ⟨hv, _, e, _, heq⟩ | ⟨hv, _, fd, _, heq⟩ <;>
    rw [heq]
  · intro n hn
    exact absurd hn (List.not_mem_nil n)
  all_goals
    intro n hn
    rcases List.mem_singleton.mp hn with rfl
    exact hne hv

/-- Closed witness for closeTableFile_calls_nonempty: the closeTableFile
call made while creating table "t" passed the non-empty name "t". -/
theorem closeTableFile_calls_nonempty_witness : "t" ≠ "" :=
  closeTableFile_calls_nonempty ⟨fun _ => none, fun _ => false⟩ "t"
    ["a"] [⟨"d", "u8", 1⟩] (fun _ => true) "t" (by decide)

lemma typeLess_ne {a b : TdbType} (h : typeLess a b) : a ≠ b :=
  fun he => absurd (he ▸ h) (typeLess_irrefl b)

lemma mem_typeMapInsert {u : TdbType} {p : TdbType × Nat} :
    ∀ {l : List (TdbType × Nat)}, p ∈ typeMapInsert u l →
      p.1 = u ∨ p ∈ l := by
  intro l
  induction l with
  | nil =>
    intro h
    rcases List.mem_singleton.mp h with rfl
    exact Or.inl rfl
  | cons vc vs ih =>
    obtain ⟨v, c⟩ := vc
    intro h
    by_cases h₁ : typeLess u v
    · rw [typeMapInsert, if_pos h₁] at h
      rcases List.mem_cons.mp h with rfl | h
      · exact Or.inl rfl
      · exact Or.inr h
    · by_cases h₂ : typeLess v u
      · rw [typeMapInsert, if_neg h₁, if_pos h₂] at h
        rcases List.mem_cons.mp h with rfl | h
        · exact Or.inr (List.mem_cons_self _ _)
        · rcases ih h with h | h
          · exact Or.inl h
          · exact Or.inr (List.mem_cons_of_mem _ h)
      · have huv : u = v := typeLess_total_eq h₁ h₂
        rw [typeMapInsert, if_neg h₁, if_neg h₂] at h
        rcases List.mem_cons.mp h with rfl | h
        · exact Or.inl huv.symm
        · exact Or.inr (List.mem_cons_of_mem _ h)

lemma pairwise_typeMapInsert {u : TdbType} :
    ∀ {l : List (TdbType × Nat)},
    l.Pairwise (fun p q => typeLess p.1 q.1) →
    (typeMapInsert u l).Pairwise (fun p q => typeLess p.1 q.1) := by
  intro l
  induction l with
  | nil =>
    intro _
    exact List.pairwise_singleton _ _
  | cons vc vs ih =>
    obtain ⟨v, c⟩ := vc
    intro hl
    obtain ⟨hv, hvs⟩ := List.pairwise_cons.mp hl
    by_cases h₁ : typeLess u v
    · rw [typeMapInsert, if_pos h₁]
      refine List.pairwise_cons.mpr ⟨?_, hl⟩
      intro q hq
      rcases List.mem_cons.mp hq with rfl | hq
      · exact h₁
      · exact typeLess_trans h₁ (hv q hq)
    · by_cases h₂ : typeLess v u
      · rw [typeMapInsert, if_neg h₁, if_pos h₂]
        refine List.pairwise_cons.mpr ⟨?_, ih hvs⟩
        intro q hq
        rcases mem_typeMapInsert hq with hq | hq
        · rw [hq]; exact h₂
        · exact hv q hq
      · rw [typeMapInsert, if_neg h₁, if_neg h₂]
        exact List.pairwise_cons.mpr ⟨hv, hvs⟩

lemma typeMapFind_eq_none {t : TdbType} :
    ∀ {l : List (TdbType × Nat)}, (∀ p ∈ l, p.1 ≠ t) →
      typeMapFind t l = none := by
  intro l
  induction l with
  | nil => intro _; rfl
  | cons vc vs ih =>
    obtain ⟨v, c⟩ := vc
    intro h
    rw [typeMapFind, if_neg (h (v, c) (List.mem_cons_self _ _)), ih]
    intro p hp
    exact h p (List.mem_cons_of_mem _ hp)

lemma typeMapFind_mem {t : TdbType} {c : Nat} :
    ∀ {l : List (TdbType × Nat)}, typeMapFind t l = some c → (t, c) ∈ l := by
  intro l
  induction l with
  | nil => intro h; cases h
  | cons vc vs ih =>
    obtain ⟨v, c'⟩ := vc
    intro h
    by_cases hv : v = t
    · rw [typeMapFind, if_pos hv] at h
      cases h
      rw [hv]
      exact List.mem_cons_self _ _
    · rw [typeMapFind, if_neg hv] at h
      exact List.mem_cons_of_mem _ (ih h)

lemma typeMapFind_nil (t : TdbType) :
    typeMapFind t ([] : List (TdbType × Nat)) = none := rfl

lemma typeMapFind_cons (v : TdbType) (c : Nat) (vs : List (TdbType × Nat))
    (t : TdbType) :
    typeMapFind t ((v, c) :: vs) =
      if v = t then some c else typeMapFind t vs := rfl

lemma typeMapInsert_nil (t : TdbType) :
    typeMapInsert t ([] : List (TdbType × Nat)) = [(t, 1)] := rfl

lemma typeMapInsert_cons (t v : TdbType) (c : Nat)
    (vs : List (TdbType × Nat)) :
    typeMapInsert t ((v, c) :: vs) =
      if typeLess t v then (t, 1) :: (v, c) :: vs
      else if typeLess v t then (v, c) :: typeMapInsert t vs
      else (v, c + 1) :: vs := rfl

lemma typeMapFind_insert {u t : TdbType} :
    ∀ {l : List (TdbType × Nat)},
    l.Pairwise (fun p q => typeLess p.1 q.1) →
    typeMapFind t (typeMapInsert u l) =
      if t = u then some ((typeMapFind u l).getD 0 + 1)
      else typeMapFind t l := by
  intro l
  induction l with
  | nil =>
    intro _
    by_cases ht : t = u
    · subst ht
      rw [typeMapInsert_nil, typeMapFind_cons, if_pos rfl, if_pos rfl,
        typeMapFind_nil]
      rfl
    · rw [typeMapInsert_nil, typeMapFind_cons,
        if_neg fun h => ht h.symm, if_neg ht]
  | cons vc vs ih =>
    obtain ⟨v, c⟩ := vc
    intro hl
    obtain ⟨hv, hvs⟩ := List.pairwise_cons.mp hl
    by_cases h₁ : typeLess u v
    · rw [typeMapInsert_cons, if_pos h₁]
      by_cases ht : t = u
      · subst ht
        have hnone : typeMapFind t ((v, c) :: vs) = none := by
          refine typeMapFind_eq_none ?_
          intro p hp
          rcases List.mem_cons.mp hp with rfl | hp
          · intro hh
            have hvt : v = t := hh
            rw [hvt] at h₁
            exact typeLess_irrefl t h₁
          · intro hh
            have htp := typeLess_trans h₁ (hv p hp)
            rw [hh] at htp
            exact typeLess_irrefl t htp
        rw [typeMapFind_cons, if_pos rfl, if_pos rfl, hnone]
        rfl
      · rw [typeMapFind_cons, if_neg fun h => ht h.symm, if_neg ht]
    · by_cases h₂ : typeLess v u
      · rw [typeMapInsert_cons, if_neg h₁, if_pos h₂]
        have hvu : ¬ v = u := typeLess_ne h₂
        by_cases hvt : v = t
        · have htu : ¬ t = u := fun h => hvu (hvt.trans h)
          rw [typeMapFind_cons, if_pos hvt, if_neg htu, typeMapFind_cons,
            if_pos hvt]
        · rw [typeMapFind_cons, if_neg hvt, ih hvs]
          by_cases ht : t = u
          · rw [if_pos ht, if_pos ht, typeMapFind_cons, if_neg hvu]
          · rw [if_neg ht, if_neg ht, typeMapFind_cons, if_neg hvt]
      · have huv : u = v := typeLess_total_eq h₁ h₂
        subst huv
        rw [typeMapInsert_cons, if_neg h₁, if_neg h₂]
        by_cases ht : t = u
        · subst ht
          rw [typeMapFind_cons, if_pos rfl, if_pos rfl, typeMapFind_cons,
            if_pos rfl]
          rfl
        · rw [typeMapFind_cons, if_neg fun h => ht h.symm, if_neg ht,
            typeMapFind_cons, if_neg fun h => ht h.symm]

lemma foldl_typeMapInsert_pairwise :
    ∀ (ts : List TdbType) (acc : List (TdbType × Nat)),
    acc.Pairwise (fun p q => typeLess p.1 q.1) →
    (ts.foldl (fun a u => typeMapInsert u a) acc).Pairwise
      (fun p q => typeLess p.1 q.1) := by
  intro ts
  induction ts with
  | nil => exact fun acc h => h
  | cons u us ih =>
    intro acc hacc
    exact ih (typeMapInsert u acc) (pairwise_typeMapInsert hacc)

lemma foldl_typeMapFind (t : TdbType) :
    ∀ (ts : List TdbType) (acc : List (TdbType × Nat)),
    acc.Pairwise (fun p q => typeLess p.1 q.1) →
    typeMapFind t (ts.foldl (fun a u => typeMapInsert u a) acc) =
      if ts.count t = 0 then typeMapFind t acc
      else some ((typeMapFind t acc).getD 0 + ts.count t) := by
  intro ts
  induction ts with
  | nil =>
    intro acc _
    simp
  | cons u us ih =>
    intro acc hacc
    rw [List.foldl_cons, ih (typeMapInsert u acc)
      (pairwise_typeMapInsert hacc), typeMapFind_insert hacc]
    by_cases htu : t = u
    · subst htu
      have hcount : (t :: us).count t = us.count t + 1 := by
        simp [List.count_cons]
      rw [hcount, if_neg (Nat.succ_ne_zero _)]
      by_cases hz : us.count t = 0
      · rw [if_pos hz, hz]
        simp
      · rw [if_neg hz]
        simp only [eq_self_iff_true, if_true, Option.getD_some]
        congr 1
        omega
    · have hcount : (u :: us).count t = us.count t := by
        simp [List.count_cons, beq_iff_eq, Ne.symm htu]
      rw [hcount]
      simp only [if_neg htu]

lemma buildTypeMap_mem_count {t : TdbType} {types : List TdbType}
    (h : t ∈ types) : (t, types.count t) ∈ buildTypeMap types := by
  have hfind := foldl_typeMapFind t types [] (List.Pairwise.nil)
  have hpos : 0 < types.count t := List.count_pos_iff.mpr h
  rw [if_neg (by omega), typeMapFind_nil] at hfind
  simp only [Option.getD_none, Nat.zero_add] at hfind
  exact typeMapFind_mem hfind

lemma draws_error {oracle : Nat → Bool} {err e : TdbError} :
    ∀ (k ctr : Nat), draws oracle ctr k err = .error e → e = err := by
  intro k
  induction k with
  | zero => intro ctr h; cases h
  | succ k ih =>
    intro ctr h
    rw [draws] at h
    by_cases ho : oracle ctr
    · rw [if_pos ho] at h
      exact ih (ctr + 1) h
    · rw [if_neg ho] at h
      cases h
      rfl

lemma draw_error {oracle : Nat → Bool} {err e : TdbError} {ctr : Nat}
    (h : draw oracle ctr err = .error e) : e = err := by
  rw [draw] at h
  by_cases ho : oracle ctr
  · rw [if_pos ho] at h; cases h
  · rw [if_neg ho] at h; cases h; rfl

lemma createMemTypes_error {oracle : Nat → Bool} {e : TdbError} :
    ∀ (tm : List (TdbType × Nat)) (ctr : Nat),
    createMemTypes oracle tm ctr = .error e → e = TdbError.GeneralError := by
  intro tm
  induction tm with
  | nil => intro ctr h; cases h
  | cons p ts ih =>
    obtain ⟨t, k⟩ := p
    intro ctr h
    rw [createMemTypes] at h
    by_cases h₁ : oracle ctr
    · rw [if_pos h₁] at h
      by_cases h₂ : isVariableLengthType t
      · rw [if_pos h₂] at h
        exact ih _ h
      · rw [if_neg h₂] at h
        by_cases h₃ : oracle (ctr + 1)
        · rw [if_pos h₃] at h
          exact ih _ h
        · rw [if_neg h₃] at h
          cases h
          rfl
    · rw [if_neg h₁] at h
      cases h
      rfl

lemma createDatasets_error {oracle : Nat → Bool} {e : TdbError} :
    ∀ (tm : List (TdbType × Nat)) (ctr : Nat),
    createDatasets oracle tm ctr = .error e →
      e = TdbError.GeneralError ∨ e = TdbError.IoError := by
  intro tm
  induction tm with
  | nil => intro ctr h; cases h
  | cons p ts ih =>
    obtain ⟨t, k⟩ := p
    intro ctr h
    rw [createDatasets] at h
    cases h₁ : draws oracle ctr 5 TdbError.GeneralError with
    | error e' =>
      simp only [h₁] at h
      cases h
      exact Or.inl (draws_error 5 ctr h₁)
    | ok c₁ =>
      simp only [h₁] at h
      cases h₂ : draw oracle c₁ TdbError.IoError with
      | error e' =>
        simp only [h₂] at h
        cases h
        exact Or.inr (draw_error h₂)
      | ok c₂ =>
        simp only [h₂] at h
        cases h₃ : createDatasets oracle ts c₂ with
        | error e' =>
          simp only [h₃] at h
          cases h
          exact ih c₂ h₃
        | ok r =>
          obtain ⟨c₃, ds⟩ := r
          simp only [h₃] at h
          cases h

lemma createDatasets_ok {oracle : Nat → Bool} :
    ∀ (tm : List (TdbType × Nat)) (ctr c : Nat) (ds : List CreatedDataset),
    createDatasets oracle tm ctr = .ok (c, ds) →
      ds = tm.map fun p => mkTypeDataset p.1 p.2 := by
  intro tm
  induction tm with
  | nil =>
    intro ctr c ds h
    rw [createDatasets] at h
    cases h
    rfl
  | cons p ts ih =>
    obtain ⟨t, k⟩ := p
    intro ctr c ds h
    rw [createDatasets] at h
    cases h₁ : draws oracle ctr 5 TdbError.GeneralError with
    | error e' => simp only [h₁] at h; cases h
    | ok c₁ =>
      simp only [h₁] at h
      cases h₂ : draw oracle c₁ TdbError.IoError with
      | error e' => simp only [h₂] at h; cases h
      | ok c₂ =>
        simp only [h₂] at h
        cases h₃ : createDatasets oracle ts c₂ with
        | error e' => simp only [h₃] at h; cases h
        | ok r =>
          obtain ⟨c₃, ds'⟩ := r
          simp only [h₃] at h
          cases h
          rw [List.map_cons, ih _ _ _ h₃]

lemma tblCreateBody_error {oracle : Nat → Bool} {ctr : Nat}
    {names : List String} {types : List TdbType} {e : TdbError}
    (h : tblCreateBody oracle ctr names types = .error e) :
    e = TdbError.GeneralError ∨ e = TdbError.IoError := by
  rw [tblCreateBody] at h
  cases h₁ : createMemTypes oracle (buildTypeMap types) ctr with
  | error e' =>
    simp only [h₁] at h; cases h
    exact Or.inl (createMemTypes_error _ ctr h₁)
  | ok c₁ =>
    simp only [h₁] at h
    cases h₂ : draws oracle c₁ 4 TdbError.GeneralError with
    | error e' =>
      simp only [h₂] at h; cases h
      exact Or.inl (draws_error 4 c₁ h₂)
    | ok c₂ =>
      simp only [h₂] at h
      cases h₃ : draws oracle c₂ 7 TdbError.GeneralError with
      | error e' =>
        simp only [h₃] at h; cases h
        exact Or.inl (draws_error 7 c₂ h₃)
      | ok c₃ =>
        simp only [h₃] at h
        cases h₄ : createDatasets oracle (buildTypeMap types) c₃ with
        | error e' =>
          simp only [h₄] at h; cases h
          exact createDatasets_error _ c₃ h₄
        | ok r =>
          obtain ⟨c₄, dsets⟩ := r
          simp only [h₄] at h
          cases h₅ : draws oracle c₄ 10 TdbError.GeneralError with
          | error e' =>
            simp only [h₅] at h; cases h
            exact Or.inl (draws_error 10 c₄ h₅)
          | ok c₅ =>
            simp only [h₅] at h
            by_cases hn : 0 < names.length
            · rw [if_pos hn] at h
              cases h₆ : draws oracle c₅ names.length
                  TdbError.GeneralError with
              | error e' =>
                simp only [h₆] at h; cases h
                exact Or.inl (draws_error _ c₅ h₆)
              | ok ca =>
                simp only [h₆] at h
                cases h₇ : draw oracle ca TdbError.IoError with
                | error e' =>
                  simp only [h₇] at h; cases h
                  exact Or.inr (draw_error h₇)
                | ok cz => simp only [h₇] at h; cases h
            · rw [if_neg hn] at h
              cases h

lemma tblCreateBody_ok {oracle : Nat → Bool} {ctr : Nat}
    {names : List String} {types : List TdbType} {fd : FileData}
    (h : tblCreateBody oracle ctr names types = .ok fd) :
    fd = ⟨some 0,
          (buildTypeMap types).map fun p => mkTypeDataset p.1 p.2,
          some names.length⟩ := by
  rw [tblCreateBody] at h
  cases h₁ : createMemTypes oracle (buildTypeMap types) ctr with
  | error e' => simp only [h₁] at h; cases h
  | ok c₁ =>
    simp only [h₁] at h
    cases h₂ : draws oracle c₁ 4 TdbError.GeneralError with
    | error e' => simp only [h₂] at h; cases h
    | ok c₂ =>
      simp only [h₂] at h
      cases h₃ : draws oracle c₂ 7 TdbError.GeneralError with
      | error e' => simp only [h₃] at h; cases h
      | ok c₃ =>
        simp only [h₃] at h
        cases h₄ : createDatasets oracle (buildTypeMap types) c₃ with
        | error e' => simp only [h₄] at h; cases h
        | ok r =>
          obtain ⟨c₄, dsets⟩ := r
          simp only [h₄] at h
          have hds := createDatasets_ok _ c₃ c₄ dsets h₄
          cases h₅ : draws oracle c₄ 10 TdbError.GeneralError with
          | error e' => simp only [h₅] at h; cases h
          | ok c₅ =>
            simp only [h₅] at h
            by_cases hn : 0 < names.length
            · rw [if_pos hn] at h
              cases h₆ : draws oracle c₅ names.length
                  TdbError.GeneralError with
              | error e' => simp only [h₆] at h; cases h
              | ok ca =>
                simp only [h₆] at h
                cases h₇ : draw oracle ca TdbError.IoError with
                | error e' => simp only [h₇] at h; cases h
                | ok cz =>
                  simp only [h₇] at h
                  cases h
                  rw [hds]
            · rw [if_neg hn] at h
              cases h
              rw [hds]

/-- C8: for every column type t with element byte size e (the type size
for fixed-length types, the 16-byte hvl_t descriptor size for
variable-length ones), a successful tblCreate created a per-type dataset
that is 2-D with initial shape [0, k] (k the number of columns of that
type), both dimensions extensible without bound, and chunk shape
[max(4096/e, 1), 1]; in particular the first chunk dimension is 1, not
0, when e exceeds 4096. -/
theorem tblCreate_dataset_properties (st : ConnState) (tbl : String)
    (names : List String) (types : List TdbType) (oracle : Nat → Bool)
    (hok : (tblCreate st tbl names types oracle).1 = TdbError.OK) :
    ∃ fd, (tblCreate st tbl names types oracle).2.1.files tbl = some fd ∧
      ∀ t ∈ types, ∃ d ∈ fd.typeDatasets,
        d.dtype = t ∧ d.dims = (0, types.count t) ∧
        d.maxdimsUnlimited = (true, true) ∧
        d.chunk = (max (4096 / elemSize t) 1, 1) ∧
        (4096 < elemSize t → d.chunk.1 = 1) := by
  rcases tblCreate_outcomes st tbl names types oracle with
    ⟨e, heq, hnok⟩ | ⟨_, _, heq⟩ | ⟨_, _, e, hbody, heq⟩ |
    ⟨_, _, fd, hbody, heq⟩
  · rw [heq] at hok
    exact absurd hok hnok
  · rw [heq] at hok
    simp at hok
  · rw [heq] at hok
    rcases tblCreateBody_error hbody with he | he <;>
      (rw [he] at hok; simp at hok)
  · rw [heq]
    refine ⟨fd, by simp, ?_⟩
    have hfd := tblCreateBody_ok hbody
    subst hfd
    intro t ht
    refine ⟨mkTypeDataset t (types.count t),
      List.mem_map_of_mem _ (buildTypeMap_mem_count ht), rfl, rfl, rfl,
      rfl, ?_⟩
    intro hbig
    simp [mkTypeDataset, Nat.div_eq_of_lt hbig]

/-- Closed witness for tblCreate_dataset_properties: a successful
creation with a 1-byte type and an 8192-byte type; the latter exceeds
the 4096-byte chunk target, so its chunk gets first dimension 1. -/
theorem tblCreate_dataset_properties_witness :
    ∃ fd, (tblCreate ⟨fun _ => none, fun _ => false⟩ "t" ["a", "b"]
        [⟨"d", "u8", 1⟩, ⟨"d", "big", 8192⟩]
        (fun _ => true)).2.1.files "t" = some fd ∧
      ∀ t ∈ [TdbType.mk "d" "u8" 1, TdbType.mk "d" "big" 8192],
        ∃ d ∈ fd.typeDatasets,
          d.dtype = t ∧
          d.dims = (0, ([TdbType.mk "d" "u8" 1,
            TdbType.mk "d" "big" 8192].count t)) ∧
          d.maxdimsUnlimited = (true, true) ∧
          d.chunk = (max (4096 / elemSize t) 1, 1) ∧
          (4096 < elemSize t → d.chunk.1 = 1) :=
  tblCreate_dataset_properties ⟨fun _ => none, fun _ => false⟩ "t"
    ["a", "b"] [⟨"d", "u8", 1⟩, ⟨"d", "big", 8192⟩] (fun _ => true)
    (by decide)

/-- SharemindTdbValue: a typed byte buffer; val.size is the buffer
length. -/
structure TdbValue where
  vtype : TdbType
  buffer : List Nat
deriving DecidableEq

/-- A per-type dataset of an open table file: its committed type
attribute and its current extent (dims 0 and 1). -/
structure DatasetInfo where
  dtype : TdbType
  extent : Nat × Nat
deriving DecidableEq

/-- The observable state of one table file for insertRow: the row_count
attribute, the per-type datasets (indexed by their object reference),
and the column index (for each column ordinal, the reference of its
backing dataset).  Cell contents are not modelled: the claims below
concern extents and the row count. -/
structure TableFile where
  rowCount : Nat
  datasets : List DatasetInfo
  columnRefs : List Nat
deriving DecidableEq

/-- TdbHdf5Connection::validateValues (lines 2043-2071): for each
fixed-length value the buffer must be non-empty and a multiple of the
type size; variable-length values are skipped. -/
def validateValues (values : List TdbValue) : Bool :=
  values.all fun v =>
    isVariableLengthType v.vtype ||
      (v.buffer.length ≠ 0 && v.buffer.length % v.vtype.size = 0)

/-- std::map accumulation by SharemindTdbTypeLess adding n to the count
of an equivalent key (batchTypeCount[type] += n in the validation loop
of insertRow). -/
def typeMapAdd (t : TdbType) (n : Nat) :
    List (TdbType × Nat) → List (TdbType × Nat)
  | [] => [(t, n)]
  | (u, c) :: us =>
    if typeLess t u then (t, n) :: (u, c) :: us
    else if typeLess u t then (u, c) :: typeMapAdd t n us
    else (u, c + n) :: us

/-- Sorted insertion into the std::map of insertRow keyed by the
dataset object reference (refTypes); an already present key is left
alone. -/
def natMapInsert (r : Nat) : List Nat → List Nat
  | [] => [r]
  | x :: xs =>
    if r < x then r :: x :: xs
    else if x < r then x :: natMapInsert r xs
    else x :: xs

/-- The type attribute of each column's backing dataset, in column
order (resolution of the column index references). -/
def typesOfRefs (ds : List DatasetInfo) (refs : List Nat) : List TdbType :=
  refs.filterMap fun r => (ds[r]?).map DatasetInfo.dtype

/-- The type → column-count map the refTypes resolution loop of
insertRow builds (TdbHdf5Connection.cpp lines 1436-1473). -/
def typeCounts (f : TableFile) : List (TdbType × Nat) :=
  buildTypeMap (typesOfRefs f.datasets f.columnRefs)

/-- The reference-resolution loop of insertRow (lines 1436-1473): walk
the column index; each not-yet-seen dataset reference is dereferenced
and its type attribute read (one fallible call, objRefToType), and
recorded in the reference-keyed map. -/
def resolveRefs (ds : List DatasetInfo) (oracle : Nat → Bool) :
    List Nat → Nat → List Nat → Except TdbError (Nat × List Nat)
  | [], ctr, seen => .ok (ctr, seen)
  | r :: rs, ctr, seen =>
    if r ∈ seen then resolveRefs ds oracle rs ctr seen
    else if r < ds.length then
      if oracle ctr then resolveRefs ds oracle rs (ctr + 1) (natMapInsert r seen)
      else .error TdbError.GeneralError
    else .error TdbError.GeneralError

/-- The row count of one batch (lines 1493-1495): one row unless the
batch is per-column with a fixed-length front value, in which case the
front value's scalar count. -/
def batchRowCountOf (vac : Bool) (values : List TdbValue) : Nat :=
  match values with
  | [] => 1
  | v :: _ =>
    if ¬ vac || isVariableLengthType v.vtype then 1
    else v.buffer.length / v.vtype.size

/-- The per-value validation loop of one batch (lines 1500-1547):
accumulates the number of supplied columns and the per-type supplied
column counts, rejecting values whose type is not in the table schema
and per-column values whose scalar count disagrees with the batch row
count. -/
def checkBatchLoop (tc : List (TdbType × Nat)) (vac : Bool) (brc : Nat) :
    List TdbValue → Nat → List (TdbType × Nat) →
    Except TdbError (Nat × List (TdbType × Nat))
  | [], cols, btc => .ok (cols, btc)
  | v :: vs, cols, btc =>
    if isVariableLengthType v.vtype then
      if vac ∧ brc ≠ 1 then .error TdbError.InvalidArgument
      else checkBatchLoop tc vac brc vs (cols + 1) (typeMapAdd v.vtype 1 btc)
    else
      match typeMapFind v.vtype tc with
      | none => .error TdbError.InvalidArgument
      | some _ =>
        -- the source re-checks the found key's size against the value
        -- type's size; the map is keyed by the full (domain, name,
        -- size) triple, so the sizes already agree
        if vac then
          if v.buffer.length / v.vtype.size ≠ brc then
            .error TdbError.InvalidArgument
          else
            checkBatchLoop tc vac brc vs (cols + 1)
              (typeMapAdd v.vtype 1 btc)
        else
          checkBatchLoop tc vac brc vs
            (cols + v.buffer.length / v.vtype.size)
            (typeMapAdd v.vtype (v.buffer.length / v.vtype.size) btc)

/-- The per-batch per-type count check (lines 1556-1569): every supplied
per-type column count must equal the stored per-type column count. -/
def checkTypeCountsMatch (tc : List (TdbType × Nat)) :
    List (TdbType × Nat) → Except TdbError Unit
  | [] => .ok ()
  | (t, c) :: rest =>
    match typeMapFind t tc with
    | none => .error TdbError.InvalidArgument
    | some c' =>
      if c ≠ c' then .error TdbError.InvalidArgument
      else checkTypeCountsMatch tc rest

/-- Validation of one batch (lines 1489-1573): per-value checks, then
the total supplied column count must equal the table column count, then
the per-type counts must match; yields the batch row count. -/
def checkBatch (tc : List (TdbType × Nat)) (colCnt : Nat)
    (values : List TdbValue) (vac : Bool) : Except TdbError Nat :=
  let brc := batchRowCountOf vac values
  match checkBatchLoop tc vac brc values 0 [] with
  | .error e => .error e
  | .ok (cols, btc) =>
    if cols ≠ colCnt then .error TdbError.InvalidArgument
    else
      match checkTypeCountsMatch tc btc with
      | .error e => .error e
      | .ok _ => .ok brc

/-- Validation of the whole list of batches, accumulating the inserted
row count (insertedRowCount in the source). -/
def checkBatches (tc : List (TdbType × Nat)) (colCnt : Nat) :
    List (List TdbValue) → List Bool → Nat → Except TdbError Nat
  | [], _, acc => .ok acc
  | vs :: rest, vac :: vrest, acc =>
    match checkBatch tc colCnt vs vac with
    | .error e => .error e
    | .ok rows => checkBatches tc colCnt rest vrest (acc + rows)
  | _ :: _, [], _ => .error TdbError.InvalidArgument

/-- H5Dset_extent on the dataset with reference r (a no-op when the
reference does not resolve). -/
def setExtentAt (ds : List DatasetInfo) (r : Nat) (e : Nat × Nat) :
    List DatasetInfo :=
  match ds[r]? with
  | some d => ds.set r ⟨d.dtype, e⟩
  | none => ds

/-- Application of the insert undo list: shrink every recorded dataset
back to its recorded pre-extend shape (the scope-exit handler at lines
1579-1608).  The recorded references are pairwise distinct (one map
entry per dataset), so the fold direction is immaterial. -/
def applyCleanup (cl : List (Nat × (Nat × Nat))) (ds : List DatasetInfo) :
    List DatasetInfo :=
  cl.foldr (fun e acc => setExtentAt acc e.1 e.2) ds

/-- The per-dataset write loop of insertRow (lines 1612-1784).  For each
distinct dataset reference, in ascending reference order: dereference,
get the dataset type, create the memory dataspace (fallible,
GeneralError), extend the dataset to (rowCount + insertedRowCount,
dsetCols) and record the undo entry (rowCount, dsetCols), select the
destination hyperslab (fallible, GeneralError), and write (fallible,
IoError; the written cells are not modelled).  Returns the next oracle
counter, the datasets, the undo list and the first error. -/
def writeLoop (oracle : Nat → Bool) (tc : List (TdbType × Nat))
    (newTotal oldRows : Nat) :
    List Nat → Nat → List DatasetInfo → List (Nat × (Nat × Nat)) →
    Nat × List DatasetInfo × List (Nat × (Nat × Nat)) × Option TdbError
  | [], ctr, ds, cl => (ctr, ds, cl, none)
  | r :: rs, ctr, ds, cl =>
    match ds[r]? with
    | none => (ctr, ds, cl, some TdbError.GeneralError)
    | some d =>
      let k := (typeMapFind d.dtype tc).getD 0
      if ¬ oracle ctr then (ctr, ds, cl, some TdbError.GeneralError)
      else if ¬ oracle (ctr + 1) then
        (ctr + 1, ds, cl, some TdbError.GeneralError)
      else if ¬ oracle (ctr + 2) then
        (ctr + 2, ds, cl, some TdbError.GeneralError)
      else if ¬ oracle (ctr + 3) then
        (ctr + 3, ds, cl, some TdbError.GeneralError)
      else
        let ds' := setExtentAt ds r (newTotal, k)
        let cl' := cl ++ [(r, (oldRows, k))]
        if ¬ oracle (ctr + 4) then (ctr + 4, ds', cl', some TdbError.GeneralError)
        else if ¬ oracle (ctr + 5) then (ctr + 5, ds', cl', some TdbError.IoError)
        else writeLoop oracle tc newTotal oldRows rs (ctr + 6) ds' cl'

/-- The validation and metadata phase of insertRow, before any mutation
of the file (TdbHdf5Connection.cpp lines 1300-1573): argument checks,
tblExists (pathExists then the HDF5 signature check), openTableFile,
getRowCount (H5Gopen, H5Aopen: GeneralError; H5Aread: IoError),
getColumnCount (four calls, GeneralError), the column index read (three
calls, GeneralError, then H5Dread, IoError), the reference resolution
and the batch validation.  Yields the next oracle counter, the distinct
dataset references in ascending order, and the inserted row count. -/
def insertRowPrelude (f : TableFile) (present : Bool) (tbl : String)
    (valuesBatch : List (List TdbValue)) (vacBatch : List Bool)
    (oracle : Nat → Bool) : Except TdbError (Nat × List Nat × Nat) :=
  if valuesBatch = [] then .error TdbError.InvalidArgument
  else if valuesBatch.length ≠ vacBatch.length then
    .error TdbError.InvalidArgument
  else if ¬ validateTableName tbl then .error TdbError.InvalidArgument
  else if ¬ valuesBatch.all (fun vs => ¬ vs.isEmpty && validateValues vs)
  then .error TdbError.InvalidArgument
  else
    match draw oracle 0 TdbError.GeneralError with
    | .error e => .error e
    | .ok c₁ =>
      match
        if present then draw oracle c₁ TdbError.GeneralError else .ok c₁
      with
      | .error e => .error e
      | .ok c₂ =>
        if ¬ present then .error TdbError.TableNotFound
        else
          match draw oracle c₂ TdbError.IoError with
          | .error e => .error e
          | .ok c₃ =>
            match draws oracle c₃ 2 TdbError.GeneralError with
            | .error e => .error e
            | .ok c₄ =>
              match draw oracle c₄ TdbError.IoError with
              | .error e => .error e
              | .ok c₅ =>
                match draws oracle c₅ 4 TdbError.GeneralError with
                | .error e => .error e
                | .ok c₆ =>
                  match draws oracle c₆ 3 TdbError.GeneralError with
                  | .error e => .error e
                  | .ok c₇ =>
                    match draw oracle c₇ TdbError.IoError with
                    | .error e => .error e
                    | .ok c₈ =>
                      match resolveRefs f.datasets oracle f.columnRefs c₈ []
                      with
                      | .error e => .error e
                      | .ok (c₉, seen) =>
                        match
                          checkBatches (typeCounts f) f.columnRefs.length
                            valuesBatch vacBatch 0
                        with
                        | .error e => .error e
                        | .ok inserted => .ok (c₉, seen, inserted)

/-- TdbHdf5Connection::insertRow (lines 1300-1800) over the table file
state.  On any failure after datasets have been extended, the undo list
is applied; the row_count attribute is written only after all dataset
writes succeeded (setRowCount: H5Gopen, H5Aopen: GeneralError; H5Awrite:
IoError). -/
def insertRow (f : TableFile) (present : Bool) (tbl : String)
    (valuesBatch : List (List TdbValue)) (vacBatch : List Bool)
    (oracle : Nat → Bool) : TdbError × TableFile :=
  match insertRowPrelude f present tbl valuesBatch vacBatch oracle with
  | .error e => (e, f)
  | .ok (ctr, seen, inserted) =>
    match writeLoop oracle (typeCounts f) (f.rowCount + inserted) f.rowCount
        seen ctr f.datasets [] with
    | (_, ds', cl', some e) =>
        (e, ⟨f.rowCount, applyCleanup cl' ds', f.columnRefs⟩)
    | (ctr', ds', cl', none) =>
        if ¬ oracle ctr' then
          (TdbError.GeneralError,
            ⟨f.rowCount, applyCleanup cl' ds', f.columnRefs⟩)
        else if ¬ oracle (ctr' + 1) then
          (TdbError.GeneralError,
            ⟨f.rowCount, applyCleanup cl' ds', f.columnRefs⟩)
        else if ¬ oracle (ctr' + 2) then
          (TdbError.IoError,
            ⟨f.rowCount, applyCleanup cl' ds', f.columnRefs⟩)
        else (TdbError.OK, ⟨f.rowCount + inserted, ds', f.columnRefs⟩)

lemma list_set_self : ∀ (l : List DatasetInfo) (i : Nat) (a : DatasetInfo),
    l[i]? = some a → l.set i a = l := by
  intro l
  induction l with
  | nil => intro i a h; cases h
  | cons x xs ih =>
    intro i a h
    cases i with
    | zero =>
      simp only [List.getElem?_cons_zero, Option.some_inj] at h
      rw [List.set_cons_zero, h]
    | succ n =>
      simp only [List.getElem?_cons_succ] at h
      rw [List.set_cons_succ, ih n a h]

lemma list_getElem?_set_self : ∀ (l : List DatasetInfo) (i : Nat)
    (a : DatasetInfo), i < l.length → (l.set i a)[i]? = some a := by
  intro l
  induction l with
  | nil => intro i a h; cases h
  | cons x xs ih =>
    intro i a h
    cases i with
    | zero => rw [List.set_cons_zero, List.getElem?_cons_zero]
    | succ n =>
      rw [List.set_cons_succ, List.getElem?_cons_succ]
      exact ih n a (Nat.lt_of_succ_lt_succ h)

lemma list_getElem?_set_ne : ∀ (l : List DatasetInfo) (i j : Nat)
    (a : DatasetInfo), j ≠ i → (l.set i a)[j]? = l[j]? := by
  intro l
  induction l with
  | nil => intro i j a _; rfl
  | cons x xs ih =>
    intro i j a h
    cases i with
    | zero =>
      cases j with
      | zero => exact absurd rfl h
      | succ m => rfl
    | succ n =>
      cases j with
      | zero => rw [List.set_cons_succ, List.getElem?_cons_zero, List.getElem?_cons_zero]
      | succ m =>
        rw [List.set_cons_succ, List.getElem?_cons_succ,
          List.getElem?_cons_succ]
        exact ih n m a (fun hh => h (by rw [hh]))

lemma setExtentAt_none {ds : List DatasetInfo} {r : Nat}
    (h : ds[r]? = none) (e : Nat × Nat) : setExtentAt ds r e = ds := by
  unfold setExtentAt
  rw [h]

lemma setExtentAt_some {ds : List DatasetInfo} {r : Nat} {d : DatasetInfo}
    (h : ds[r]? = some d) (e : Nat × Nat) :
    setExtentAt ds r e = ds.set r ⟨d.dtype, e⟩ := by
  unfold setExtentAt
  rw [h]

lemma setExtentAt_getElem_ne (ds : List DatasetInfo) (r r' : Nat)
    (e : Nat × Nat) (h : r' ≠ r) : (setExtentAt ds r e)[r']? = ds[r']? := by
  cases hds : ds[r]? with
  | none => rw [setExtentAt_none hds]
  | some d =>
    rw [setExtentAt_some hds]
    exact list_getElem?_set_ne ds r r' _ h

lemma setExtentAt_collapse (ds : List DatasetInfo) (r : Nat)
    (e₁ e₂ : Nat × Nat) :
    setExtentAt (setExtentAt ds r e₁) r e₂ = setExtentAt ds r e₂ := by
  cases hds : ds[r]? with
  | none => rw [setExtentAt_none hds, setExtentAt_none hds]
  | some d =>
    have hlt : r < ds.length := by
      by_contra hge
      rw [List.getElem?_eq_none (Nat.le_of_not_lt hge)] at hds
      cases hds
    have hget : (ds.set r ⟨d.dtype, e₁⟩)[r]? = some ⟨d.dtype, e₁⟩ :=
      list_getElem?_set_self ds r _ hlt
    rw [setExtentAt_some hds, setExtentAt_some hget, List.set_set,
      setExtentAt_some hds]

lemma setExtentAt_self (ds : List DatasetInfo) (r : Nat) (d : DatasetInfo)
    (h : ds[r]? = some d) : setExtentAt ds r d.extent = ds := by
  rw [setExtentAt_some h]
  exact list_set_self ds r d h

lemma applyCleanup_append (cl : List (Nat × (Nat × Nat)))
    (e : Nat × (Nat × Nat)) (ds : List DatasetInfo) :
    applyCleanup (cl ++ [e]) ds = applyCleanup cl (setExtentAt ds e.1 e.2)
    := by
  unfold applyCleanup
  rw [List.foldr_append]
  rfl

/-- The state invariant of the per-dataset write loop: at every point,
applying the recorded undo list restores the original datasets. -/
lemma writeLoop_restore (oracle : Nat → Bool) (tc : List (TdbType × Nat))
    (newTotal oldRows : Nat) (ds₀ : List DatasetInfo) :
    ∀ (refs : List Nat) (ctr : Nat) (ds : List DatasetInfo)
      (cl : List (Nat × (Nat × Nat))),
    refs.Nodup →
    applyCleanup cl ds = ds₀ →
    (∀ r ∈ refs, ds[r]? = ds₀[r]?) →
    (∀ r ∈ refs, ∀ d, ds₀[r]? = some d →
      d.extent = (oldRows, (typeMapFind d.dtype tc).getD 0)) →
    applyCleanup
      (writeLoop oracle tc newTotal oldRows refs ctr ds cl).2.2.1
      (writeLoop oracle tc newTotal oldRows refs ctr ds cl).2.1 = ds₀ := by
  intro refs
  induction refs with
  | nil =>
    intro ctr ds cl _ hinv _ _
    exact hinv
  | cons r rs ih =>
    intro ctr ds cl hnodup hinv huntouched hexts
    have hnd := List.nodup_cons.mp hnodup
    rw [writeLoop]
    cases hds : ds[r]? with
    | none => exact hinv
    | some d =>
      by_cases h₀ : oracle ctr
      case neg => simp only [h₀, not_false_eq_true, if_true]; exact hinv
      by_cases h₁ : oracle (ctr + 1)
      case neg =>
        simp only [h₀, h₁, not_false_eq_true, not_true_eq_false, if_true,
          if_false, reduceIte]
        exact hinv
      by_cases h₂ : oracle (ctr + 2)
      case neg =>
        simp only [h₀, h₁, h₂, not_false_eq_true, not_true_eq_false,
          if_true, if_false, reduceIte]
        exact hinv
      by_cases h₃ : oracle (ctr + 3)
      case neg =>
        simp only [h₀, h₁, h₂, h₃, not_false_eq_true, not_true_eq_false,
          if_true, if_false, reduceIte]
        exact hinv
      have hd₀ : ds₀[r]? = some d :=
        (huntouched r (List.mem_cons_self r rs)).symm.trans hds
      have hdext : d.extent =
          (oldRows, (typeMapFind d.dtype tc).getD 0) :=
        hexts r (List.mem_cons_self r rs) d hd₀
      have hrestore :
          applyCleanup
            (cl ++ [(r, (oldRows, (typeMapFind d.dtype tc).getD 0))])
            (setExtentAt ds r
              (newTotal, (typeMapFind d.dtype tc).getD 0)) = ds₀ := by
        rw [applyCleanup_append, setExtentAt_collapse, ← hdext,
          setExtentAt_self ds r d hds]
        exact hinv
      by_cases h₄ : oracle (ctr + 4)
      case neg =>
        simp only [h₀, h₁, h₂, h₃, h₄, not_false_eq_true,
          not_true_eq_false, if_true, if_false, reduceIte]
        exact hrestore
      by_cases h₅ : oracle (ctr + 5)
      case neg =>
        simp only [h₀, h₁, h₂, h₃, h₄, h₅, not_false_eq_true,
          not_true_eq_false, if_true, if_false, reduceIte]
        exact hrestore
      simp only [h₀, h₁, h₂, h₃, h₄, h₅, not_true_eq_false, if_false,
        reduceIte]
      refine ih (ctr + 6) _ _ hnd.2 hrestore ?_ ?_
      · intro r' hr'
        have hne : r' ≠ r := fun hh => hnd.1 (hh ▸ hr')
        rw [setExtentAt_getElem_ne ds r r' _ hne]
        exact huntouched r' (List.mem_cons_of_mem _ hr')
      · intro r' hr' d' hd'
        exact hexts r' (List.mem_cons_of_mem _ hr') d' hd'

lemma mem_natMapInsert {r x : Nat} :
    ∀ {l : List Nat}, x ∈ natMapInsert r l → x = r ∨ x ∈ l := by
  intro l
  induction l with
  | nil =>
    intro h
    exact Or.inl (List.mem_singleton.mp h)
  | cons y ys ih =>
    intro h
    by_cases h₁ : r < y
    · rw [natMapInsert, if_pos h₁] at h
      rcases List.mem_cons.mp h with rfl | h
      · exact Or.inl rfl
      · exact Or.inr h
    · by_cases h₂ : y < r
      · rw [natMapInsert, if_neg h₁, if_pos h₂] at h
        rcases List.mem_cons.mp h with rfl | h
        · exact Or.inr (List.mem_cons_self _ _)
        · rcases ih h with h | h
          · exact Or.inl h
          · exact Or.inr (List.mem_cons_of_mem _ h)
      · rw [natMapInsert, if_neg h₁, if_neg h₂] at h
        exact Or.inr h

lemma pairwise_natMapInsert {r : Nat} :
    ∀ {l : List Nat}, l.Pairwise (· < ·) →
      (natMapInsert r l).Pairwise (· < ·) := by
  intro l
  induction l with
  | nil =>
    intro _
    exact List.pairwise_singleton _ _
  | cons y ys ih =>
    intro hl
    obtain ⟨hy, hys⟩ := List.pairwise_cons.mp hl
    by_cases h₁ : r < y
    · rw [natMapInsert, if_pos h₁]
      refine List.pairwise_cons.mpr ⟨?_, hl⟩
      intro q hq
      rcases List.mem_cons.mp hq with rfl | hq
      · exact h₁
      · exact lt_trans h₁ (hy q hq)
    · by_cases h₂ : y < r
      · rw [natMapInsert, if_neg h₁, if_pos h₂]
        refine List.pairwise_cons.mpr ⟨?_, ih hys⟩
        intro q hq
        rcases mem_natMapInsert hq with rfl | hq
        · exact h₂
        · exact hy q hq
      · rw [natMapInsert, if_neg h₁, if_neg h₂]
        exact hl

lemma resolveRefs_ok {ds : List DatasetInfo} {oracle : Nat → Bool} :
    ∀ {rs : List Nat} {ctr : Nat} {acc : List Nat} {c : Nat}
      {seen : List Nat},
    resolveRefs ds oracle rs ctr acc = .ok (c, seen) →
    acc.Pairwise (· < ·) →
    seen.Pairwise (· < ·) ∧ (∀ x ∈ seen, x ∈ acc ∨ x ∈ rs) := by
  intro rs
  induction rs with
  | nil =>
    intro ctr acc c seen h hacc
    rw [resolveRefs] at h
    cases h
    exact ⟨hacc, fun x hx => Or.inl hx⟩
  | cons r rest ih =>
    intro ctr acc c seen h hacc
    rw [resolveRefs] at h
    by_cases h₁ : r ∈ acc
    · rw [if_pos h₁] at h
      obtain ⟨hp, hmem⟩ := ih h hacc
      refine ⟨hp, fun x hx => ?_⟩
      rcases hmem x hx with hx | hx
      · exact Or.inl hx
      · exact Or.inr (List.mem_cons_of_mem _ hx)
    · rw [if_neg h₁] at h
      by_cases h₂ : r < ds.length
      · rw [if_pos h₂] at h
        by_cases h₃ : oracle ctr
        · rw [if_pos h₃] at h
          obtain ⟨hp, hmem⟩ := ih h (pairwise_natMapInsert hacc)
          refine ⟨hp, fun x hx => ?_⟩
          rcases hmem x hx with hx | hx
          · rcases mem_natMapInsert hx with rfl | hx
            · exact Or.inr (List.mem_cons_self _ _)
            · exact Or.inl hx
          · exact Or.inr (List.mem_cons_of_mem _ hx)
        · rw [if_neg h₃] at h
          cases h
      · rw [if_neg h₂] at h
        cases h

lemma typesOfRefs_count (ds : List DatasetInfo) (r : Nat)
    (d : DatasetInfo) (hd : ds[r]? = some d) :
    ∀ (refs : List Nat), (∀ x ∈ refs, x < ds.length) →
    (∀ x ∈ refs, ∀ dx, ds[x]? = some dx → dx.dtype = d.dtype → x = r) →
    (typesOfRefs ds refs).count d.dtype = refs.count r := by
  intro refs
  induction refs with
  | nil => intro _ _; rfl
  | cons x xs ih =>
    intro hlt hinj
    have hxlt : x < ds.length := hlt x (List.mem_cons_self _ _)
    obtain ⟨dx, hdx⟩ : ∃ dx, ds[x]? = some dx := by
      rw [List.getElem?_eq_getElem hxlt]
      exact ⟨_, rfl⟩
    have hcons : typesOfRefs ds (x :: xs) =
        dx.dtype :: typesOfRefs ds xs := by
      unfold typesOfRefs
      rw [List.filterMap_cons, hdx]
      rfl
    rw [hcons, List.count_cons, List.count_cons,
      ih (fun y hy => hlt y (List.mem_cons_of_mem _ hy))
        (fun y hy => hinj y (List.mem_cons_of_mem _ hy))]
    have hiff : (dx.dtype = d.dtype) ↔ (x = r) := by
      constructor
      · exact fun hh => hinj x (List.mem_cons_self _ _) dx hdx hh
      · intro hh
        subst hh
        rw [hd] at hdx
        cases hdx
        rfl
    by_cases hc : x = r
    · rw [if_pos (beq_iff_eq.mpr (hiff.mpr hc)),
        if_pos (beq_iff_eq.mpr hc)]
    · rw [if_neg (fun hb => hc (hiff.mp (beq_iff_eq.mp hb))),
        if_neg (fun hb => hc (beq_iff_eq.mp hb))]

/-- Under the schema invariants, looking up a referenced dataset's type
in the type → column-count map yields the number of columns stored in
that dataset. -/
lemma typeCounts_find (f : TableFile) (r : Nat) (d : DatasetInfo)
    (hrefs : ∀ x ∈ f.columnRefs, x < f.datasets.length)
    (hty : ∀ r₁ ∈ f.columnRefs, ∀ r₂ ∈ f.columnRefs,
      (f.datasets[r₁]?).map DatasetInfo.dtype =
        (f.datasets[r₂]?).map DatasetInfo.dtype → r₁ = r₂)
    (hr : r ∈ f.columnRefs) (hd : f.datasets[r]? = some d) :
    typeMapFind d.dtype (typeCounts f) = some (f.columnRefs.count r) := by
  have hcount : (typesOfRefs f.datasets f.columnRefs).count d.dtype =
      f.columnRefs.count r := by
    refine typesOfRefs_count f.datasets r d hd f.columnRefs hrefs ?_
    intro x hx dx hdx hdtype
    refine hty x hx r hr ?_
    rw [hdx, hd]
    show some dx.dtype = some d.dtype
    rw [hdtype]
  have hpos : 0 < f.columnRefs.count r := List.count_pos_iff.mpr hr
  unfold typeCounts buildTypeMap
  rw [foldl_typeMapFind d.dtype (typesOfRefs f.datasets f.columnRefs) []
    List.Pairwise.nil, hcount]
  rw [if_neg (by omega), typeMapFind_nil]
  simp only [Option.getD_none, Nat.zero_add]

lemma insertRowPrelude_ok {f : TableFile} {present : Bool} {tbl : String}
    {valuesBatch : List (List TdbValue)} {vacBatch : List Bool}
    {oracle : Nat → Bool} {ctr : Nat} {seen : List Nat} {inserted : Nat}
    (h : insertRowPrelude f present tbl valuesBatch vacBatch oracle =
      .ok (ctr, seen, inserted)) :
    ∃ c₈, resolveRefs f.datasets oracle f.columnRefs c₈ [] =
      .ok (ctr, seen) := by
  unfold insertRowPrelude at h
  by_cases hv₁ : valuesBatch = []
  · rw [if_pos hv₁] at h; cases h
  rw [if_neg hv₁] at h
  by_cases hv₂ : valuesBatch.length ≠ vacBatch.length
  · rw [if_pos hv₂] at h; cases h
  rw [if_neg hv₂] at h
  by_cases hv₃ : ¬ validateTableName tbl = true
  · rw [if_pos hv₃] at h; cases h
  rw [if_neg hv₃] at h
  by_cases hv₄ : ¬ (valuesBatch.all
      (fun vs => ¬ vs.isEmpty && validateValues vs)) = true
  · rw [if_pos hv₄] at h; cases h
  rw [if_neg hv₄] at h
  cases hd₁ : draw oracle 0 TdbError.GeneralError with
  | error e => simp only [hd₁] at h; cases h
  | ok c₁ =>
    simp only [hd₁] at h
    cases hd₂ : (if present then draw oracle c₁ TdbError.GeneralError
        else .ok c₁) with
    | error e => simp only [hd₂] at h; cases h
    | ok c₂ =>
      simp only [hd₂] at h
      by_cases hp : ¬ present = true
      · rw [if_pos hp] at h; cases h
      rw [if_neg hp] at h
      cases hd₃ : draw oracle c₂ TdbError.IoError with
      | error e => simp only [hd₃] at h; cases h
      | ok c₃ =>
        simp only [hd₃] at h
        cases hd₄ : draws oracle c₃ 2 TdbError.GeneralError with
        | error e => simp only [hd₄] at h; cases h
        | ok c₄ =>
          simp only [hd₄] at h
          cases hd₅ : draw oracle c₄ TdbError.IoError with
          | error e => simp only [hd₅] at h; cases h
          | ok c₅ =>
            simp only [hd₅] at h
            cases hd₆ : draws oracle c₅ 4 TdbError.GeneralError with
            | error e => simp only [hd₆] at h; cases h
            | ok c₆ =>
              simp only [hd₆] at h
              cases hd₇ : draws oracle c₆ 3 TdbError.GeneralError with
              | error e => simp only [hd₇] at h; cases h
              | ok c₇ =>
                simp only [hd₇] at h
                cases hd₈ : draw oracle c₇ TdbError.IoError with
                | error e => simp only [hd₈] at h; cases h
                | ok c₈ =>
                  simp only [hd₈] at h
                  cases hd₉ : resolveRefs f.datasets oracle f.columnRefs
                      c₈ [] with
                  | error e => simp only [hd₉] at h; cases h
                  | ok pr =>
                    obtain ⟨c₉, seen'⟩ := pr
                    simp only [hd₉] at h
                    cases hck : checkBatches (typeCounts f)
                        f.columnRefs.length valuesBatch vacBatch 0 with
                    | error e => simp only [hck] at h; cases h
                    | ok ins =>
                      simp only [hck] at h
                      cases h
                      exact ⟨c₈, hd₉⟩

/-- C1: insert atomicity.  Under the schema invariants (every column
reference resolves; distinct datasets carry distinct types; every
referenced dataset's extent is (row_count, number of columns stored in
it)), whenever insertRow returns a code other than OK the table file is
unchanged: the row count and every per-type dataset extent are restored,
because the recorded undo entries shrink every already-extended dataset
back to its pre-insert shape and the row_count attribute is only written
after all dataset writes succeed. -/
theorem insertRow_atomicity (f : TableFile) (present : Bool)
    (tbl : String) (valuesBatch : List (List TdbValue))
    (vacBatch : List Bool) (oracle : Nat → Bool)
    (hrefs : ∀ x ∈ f.columnRefs, x < f.datasets.length)
    (hty : ∀ r₁ ∈ f.columnRefs, ∀ r₂ ∈ f.columnRefs,
      (f.datasets[r₁]?).map DatasetInfo.dtype =
        (f.datasets[r₂]?).map DatasetInfo.dtype → r₁ = r₂)
    (hext : ∀ r ∈ f.columnRefs, (f.datasets[r]?).map DatasetInfo.extent =
      some (f.rowCount, f.columnRefs.count r)) :
    (insertRow f present tbl valuesBatch vacBatch oracle).1 ≠
      TdbError.OK →
    (insertRow f present tbl valuesBatch vacBatch oracle).2 = f := by
  intro hne
  unfold insertRow at *
  cases hpre : insertRowPrelude f present tbl valuesBatch vacBatch oracle
  with
  | error e => simp only [hpre]
  | ok res =>
    obtain ⟨ctr, seen, inserted⟩ := res
    simp only [hpre] at hne ⊢
    obtain ⟨c₈, hres⟩ := insertRowPrelude_ok hpre
    obtain ⟨hpair, hmem⟩ := resolveRefs_ok hres List.Pairwise.nil
    have hnodup : seen.Nodup := hpair.imp Nat.ne_of_lt
    have hsub : ∀ x ∈ seen, x ∈ f.columnRefs := by
      intro x hx
      rcases hmem x hx with hx' | hx'
      · exact absurd hx' (List.not_mem_nil x)
      · exact hx'
    have hextform : ∀ r ∈ seen, ∀ d, f.datasets[r]? = some d →
        d.extent =
          (f.rowCount, (typeMapFind d.dtype (typeCounts f)).getD 0) := by
      intro r hr d hd
      have hrc := hsub r hr
      have hfind := typeCounts_find f r d hrefs hty hrc hd
      have hx := hext r hrc
      rw [hd] at hx
      have hx' : some d.extent =
          some (f.rowCount, f.columnRefs.count r) := hx
      rw [hfind, Option.getD_some]
      exact Option.some_inj.mp hx'
    have hrest := writeLoop_restore oracle (typeCounts f)
      (f.rowCount + inserted) f.rowCount f.datasets seen ctr f.datasets []
      hnodup rfl (fun r _ => rfl) hextform
    rcases hwl : writeLoop oracle (typeCounts f) (f.rowCount + inserted)
        f.rowCount seen ctr f.datasets [] with ⟨ctr', ds', cl', err⟩
    rw [hwl] at hrest
    simp only at hrest
    simp only [hwl] at hne ⊢
    cases err with
    | some e =>
      show (⟨f.rowCount, applyCleanup cl' ds', f.columnRefs⟩ : TableFile)
        = f
      rw [hrest]
    | none =>
      by_cases h₀ : oracle ctr'
      case neg =>
        simp only [h₀, not_false_eq_true, if_true]
        show (⟨f.rowCount, applyCleanup cl' ds', f.columnRefs⟩ : TableFile)
          = f
        rw [hrest]
      by_cases h₁ : oracle (ctr' + 1)
      case neg =>
        simp only [h₀, h₁, not_false_eq_true, not_true_eq_false, if_true,
          if_false, reduceIte]
        show (⟨f.rowCount, applyCleanup cl' ds', f.columnRefs⟩ : TableFile)
          = f
        rw [hrest]
      by_cases h₂ : oracle (ctr' + 2)
      case neg =>
        simp only [h₀, h₁, h₂, not_false_eq_true, not_true_eq_false,
          if_true, if_false, reduceIte]
        show (⟨f.rowCount, applyCleanup cl' ds', f.columnRefs⟩ : TableFile)
          = f
        rw [hrest]
      simp only [h₀, h₁, h₂, not_true_eq_false, if_false, reduceIte]
        at hne
      exact absurd rfl hne

/-- Closed witness for insertRow_atomicity: on a two-column u8 table, an
insert whose H5Dwrite is made to fail (oracle draw 17) returns non-OK
and leaves the file (row count 0, dataset extent (0, 2)) unchanged. -/
theorem insertRow_atomicity_witness :
    (insertRow ⟨0, [⟨⟨"d", "u8", 1⟩, (0, 2)⟩], [0, 0]⟩ true "t"
        [[⟨⟨"d", "u8", 1⟩, [0x10, 0x11]⟩, ⟨⟨"d", "u8", 1⟩, [0x20, 0x21]⟩]]
        [true] (fun n => n ≠ 17)).2 =
      ⟨0, [⟨⟨"d", "u8", 1⟩, (0, 2)⟩], [0, 0]⟩ :=
  insertRow_atomicity ⟨0, [⟨⟨"d", "u8", 1⟩, (0, 2)⟩], [0, 0]⟩ true "t"
    [[⟨⟨"d", "u8", 1⟩, [0x10, 0x11]⟩, ⟨⟨"d", "u8", 1⟩, [0x20, 0x21]⟩]]
    [true] (fun n => n ≠ 17) (by decide) (by decide) (by decide)
    (by decide)

/-- C4 counterexample: on the S4 schema (two u8 columns backed by one
dataset with k = 2), inserting a single batch with asColumn = true whose
only Value has the 4 bytes 0x10 0x11 0x20 0x21 does NOT return OK: the
validation counts one supplied column per asColumn value (batchColCount
= 1) against colCount = 2 and returns InvalidArgument, and the row count
stays 0 rather than becoming 2. -/
theorem insertRow_s4_single_value_rejected :
    (insertRow ⟨0, [⟨⟨"d", "u8", 1⟩, (0, 2)⟩], [0, 0]⟩ true "t"
        [[⟨⟨"d", "u8", 1⟩, [0x10, 0x11, 0x20, 0x21]⟩]] [true]
        (fun _ => true)).1 ≠ TdbError.OK ∧
    (insertRow ⟨0, [⟨⟨"d", "u8", 1⟩, (0, 2)⟩], [0, 0]⟩ true "t"
        [[⟨⟨"d", "u8", 1⟩, [0x10, 0x11, 0x20, 0x21]⟩]] [true]
        (fun _ => true)).2.rowCount ≠ 2 := by
  exact ⟨by decide, by decide⟩

/-- C4 (amended): on the S4 schema, insertRow of a single batch with
asColumn = true containing the single Value [0x10, 0x11, 0x20, 0x21] of
length 4 returns InvalidArgument (each asColumn value supplies exactly
one column, but the table has two) and leaves the table unchanged, with
tblRowCount still 0. -/
theorem insertRow_s4_single_value_invalid_argument :
    (insertRow ⟨0, [⟨⟨"d", "u8", 1⟩, (0, 2)⟩], [0, 0]⟩ true "t"
        [[⟨⟨"d", "u8", 1⟩, [0x10, 0x11, 0x20, 0x21]⟩]] [true]
        (fun _ => true)).1 = TdbError.InvalidArgument ∧
    (insertRow ⟨0, [⟨⟨"d", "u8", 1⟩, (0, 2)⟩], [0, 0]⟩ true "t"
        [[⟨⟨"d", "u8", 1⟩, [0x10, 0x11, 0x20, 0x21]⟩]] [true]
        (fun _ => true)).2 =
      ⟨0, [⟨⟨"d", "u8", 1⟩, (0, 2)⟩], [0, 0]⟩ := by
  exact ⟨by decide, by decide⟩

/-- One step of the index permutation of transposeBlock
(TdbHdf5Connection.cpp line 127): a := a == mn1 ? mn1 : (n*a) % mn1. -/
def tStep (n mn1 a : Nat) : Nat := if a = mn1 then mn1 else (n * a) % mn1

/-- The inverse of tStep (multiplication by m modulo m*n - 1); used only
in the correctness statements and proofs. -/
def tInv (m mn1 j : Nat) : Nat := if j = mn1 then mn1 else (m * j) % mn1

/-- std::swap_ranges of the vsize-byte blocks at element positions i and
j; the buffer is modelled one vsize-byte element per index. -/
def swapF {α : Type*} (b : Nat → α) (i j : Nat) : Nat → α :=
  fun k => if k = i then b j else if k = j then b i else b k

/-- The do-while cycle loop of transposeBlock (lines 126-130): advance a
by one permutation step, swap the blocks at positions a and the cycle
start, mark a visited, and stop when a returns to the cycle start.  The
C loop has no fuel; the loop provably terminates within mn1 iterations
(the maximal cycle length), and the callers pass sufficient fuel. -/
def tCycle {α : Type*} (n mn1 pivot : Nat) :
    Nat → Nat → (Nat → α) → (Nat → Bool) → ((Nat → α) × (Nat → Bool))
  | 0, _, b, v => (b, v)
  | fuel + 1, a, b, v =>
    if tStep n mn1 a = pivot then
      (swapF b (tStep n mn1 a) pivot,
       fun k => if k = tStep n mn1 a then true else v k)
    else
      tCycle n mn1 pivot fuel (tStep n mn1 a)
        (swapF b (tStep n mn1 a) pivot)
        (fun k => if k = tStep n mn1 a then true else v k)

/-- The outer while loop of transposeBlock (lines 119-131): cycle starts
run over element positions 1, 2, ..., total-1 in order, skipping
already-visited positions. -/
def tOuter {α : Type*} (n mn1 : Nat) :
    List Nat → (Nat → α) → (Nat → Bool) → ((Nat → α) × (Nat → Bool))
  | [], b, v => (b, v)
  | p :: ps, b, v =>
    if v p then tOuter n mn1 ps b v
    else
      let r := tCycle n mn1 p (mn1 + 1) p b v
      tOuter n mn1 ps r.1 r.2

/-- transposeBlock (lines 96-132) at the element level: the buffer
[first, last) holds total = (last-first)/vsize elements of vsize bytes
each, modelled as a function from element positions; m is the row
count, n = total/m, mn1 = total - 1, and the visited bitmap starts all
false. -/
def transposeBlock {α : Type*} (m total : Nat) (b : Nat → α) : Nat → α :=
  (tOuter (total / m) (total - 1) (List.range' 1 (total - 1)) b
    (fun _ => false)).1

lemma tStep_lt {n mn1 : Nat} {a : Nat} (h : a < mn1) :
    tStep n mn1 a < mn1 := by
  unfold tStep
  rw [if_neg (Nat.ne_of_lt h)]
  exact Nat.mod_lt _ (Nat.pos_of_ne_zero (fun hz => by omega))

lemma tInv_tStep {m n mn1 : Nat} (hmn : m * n = mn1 + 1) {a : Nat}
    (h : a < mn1) : tInv m mn1 (tStep n mn1 a) = a := by
  have hmn1 : 0 < mn1 := Nat.pos_of_ne_zero (fun hz => by omega)
  unfold tStep tInv
  rw [if_neg (Nat.ne_of_lt h), if_neg (Nat.ne_of_lt (Nat.mod_lt _ hmn1))]
  have h₁ : m * (n * a % mn1) % mn1 = m * (n * a) % mn1 := by
    conv_lhs => rw [Nat.mul_mod]
    conv_rhs => rw [Nat.mul_mod]
    rw [Nat.mod_mod_of_dvd _ (dvd_refl mn1)]
  rw [h₁, ← Nat.mul_assoc, hmn]
  have h₂ : (mn1 + 1) * a = a + a * mn1 := by ring
  rw [h₂, Nat.add_mul_mod_self_right, Nat.mod_eq_of_lt h]

lemma tStep_tInv {m n mn1 : Nat} (hmn : m * n = mn1 + 1) {j : Nat}
    (h : j < mn1) : tStep n mn1 (tInv m mn1 j) = j := by
  have hmn1 : 0 < mn1 := Nat.pos_of_ne_zero (fun hz => by omega)
  unfold tStep tInv
  rw [if_neg (Nat.ne_of_lt h), if_neg (Nat.ne_of_lt (Nat.mod_lt _ hmn1))]
  have h₁ : n * (m * j % mn1) % mn1 = n * (m * j) % mn1 := by
    conv_lhs => rw [Nat.mul_mod]
    conv_rhs => rw [Nat.mul_mod]
    rw [Nat.mod_mod_of_dvd _ (dvd_refl mn1)]
  rw [h₁, ← Nat.mul_assoc, Nat.mul_comm n m, hmn]
  have h₂ : (mn1 + 1) * j = j + j * mn1 := by ring
  rw [h₂, Nat.add_mul_mod_self_right, Nat.mod_eq_of_lt h]

lemma tStep_iter_lt {n mn1 : Nat} {a : Nat} (h : a < mn1) :
    ∀ k, (tStep n mn1)^[k] a < mn1 := by
  intro k
  induction k with
  | zero => exact h
  | succ k ih =>
    rw [Function.iterate_succ_apply']
    exact tStep_lt ih

lemma tInv_iter_tStep_iter {m n mn1 : Nat} (hmn : m * n = mn1 + 1)
    {a : Nat} (h : a < mn1) :
    ∀ k, (tInv m mn1)^[k] ((tStep n mn1)^[k] a) = a := by
  intro k
  induction k with
  | zero => rfl
  | succ k ih =>
    rw [Function.iterate_succ_apply' (tStep n mn1) k a,
      Function.iterate_succ_apply (tInv m mn1) k
        (tStep n mn1 ((tStep n mn1)^[k] a)),
      tInv_tStep hmn (tStep_iter_lt h k)]
    exact ih

lemma tStep_iter_inj {m n mn1 : Nat} (hmn : m * n = mn1 + 1)
    {a b : Nat} (ha : a < mn1) (hb : b < mn1) (k : Nat)
    (h : (tStep n mn1)^[k] a = (tStep n mn1)^[k] b) : a = b := by
  have h₁ := tInv_iter_tStep_iter hmn ha k
  have h₂ := tInv_iter_tStep_iter hmn hb k
  rw [h] at h₁
  rw [h₂] at h₁
  exact h₁.symm

lemma tStep_exists_period {m n mn1 : Nat} (hmn : m * n = mn1 + 1)
    {p : Nat} (hp : p < mn1) :
    ∃ K, 0 < K ∧ K ≤ mn1 ∧ (tStep n mn1)^[K] p = p := by
  have hmap : ∀ i : Fin (mn1 + 1), (tStep n mn1)^[i.val] p < mn1 :=
    fun i => tStep_iter_lt hp i.val
  have hcard : Fintype.card (Fin mn1) < Fintype.card (Fin (mn1 + 1)) := by
    simp
  obtain ⟨i, j, hij, hfij⟩ := Fintype.exists_ne_map_eq_of_card_lt
    (fun i : Fin (mn1 + 1) => (⟨(tStep n mn1)^[i.val] p, hmap i⟩ : Fin mn1))
    hcard
  have hv : (tStep n mn1)^[i.val] p = (tStep n mn1)^[j.val] p := by
    have := congrArg Fin.val hfij
    simpa using this
  rcases Nat.lt_or_ge i.val j.val with hlt | hge
  · refine ⟨j.val - i.val, by omega, by omega, ?_⟩
    have hsplit : (tStep n mn1)^[i.val]
        ((tStep n mn1)^[j.val - i.val] p) = (tStep n mn1)^[i.val] p := by
      rw [← Function.iterate_add_apply]
      have : i.val + (j.val - i.val) = j.val := by omega
      rw [this, hv]
    exact tStep_iter_inj hmn (tStep_iter_lt hp _) hp i.val hsplit
  · have hlt' : j.val < i.val := by
      rcases Nat.lt_or_ge j.val i.val with h | h
      · exact h
      · exact absurd (Fin.val_injective (by omega)) hij
    refine ⟨i.val - j.val, by omega, by omega, ?_⟩
    have hsplit : (tStep n mn1)^[j.val]
        ((tStep n mn1)^[i.val - j.val] p) = (tStep n mn1)^[j.val] p := by
      rw [← Function.iterate_add_apply]
      have : j.val + (i.val - j.val) = i.val := by omega
      rw [this, ← hv]
    exact tStep_iter_inj hmn (tStep_iter_lt hp _) hp j.val hsplit

lemma swapF_self {α : Type*} (b : Nat → α) (i x : Nat) :
    swapF b i i x = b x := by
  unfold swapF
  split_ifs with h
  · rw [h]
  · rfl

lemma swapF_fst {α : Type*} (b : Nat → α) (i j : Nat) :
    swapF b i j i = b j := by
  unfold swapF
  rw [if_pos rfl]

lemma swapF_snd {α : Type*} (b : Nat → α) (i j : Nat) (h : j ≠ i) :
    swapF b i j j = b i := by
  unfold swapF
  rw [if_neg h, if_pos rfl]

lemma swapF_other {α : Type*} (b : Nat → α) (i j x : Nat) (hi : x ≠ i)
    (hj : x ≠ j) : swapF b i j x = b x := by
  unfold swapF
  rw [if_neg hi, if_neg hj]

/-- Correctness of the do-while cycle loop: entered at the j-th element
of the cycle of p (of minimal period K) with the invariant that the
first j cycle positions already hold their final values and position p
holds the displaced element, it finishes the cycle: afterwards every
cycle position sigma^[t] p holds the entry value of its predecessor
sigma^[t-1] p, all other positions are untouched, and exactly the cycle
positions have been added to the visited bitmap. -/
lemma tCycle_spec {α : Type*} (n mn1 p K : Nat) (b₀ : Nat → α)
    (v₀ : Nat → Bool)
    (hKp : (tStep n mn1)^[K] p = p)
    (hmin : ∀ t, 0 < t → t < K → (tStep n mn1)^[t] p ≠ p)
    (hdist : ∀ s t, s < t → t < K →
      (tStep n mn1)^[s] p ≠ (tStep n mn1)^[t] p) :
    ∀ (fuel j : Nat), j < K → K - j ≤ fuel →
    ∀ (b : Nat → α) (v : Nat → Bool),
    (∀ t, 1 ≤ t → t ≤ j →
      b ((tStep n mn1)^[t] p) = b₀ ((tStep n mn1)^[t - 1] p)) →
    b p = b₀ ((tStep n mn1)^[j] p) →
    (∀ q, (∀ t, t ≤ j → q ≠ (tStep n mn1)^[t] p) → b q = b₀ q) →
    (∀ q, v q = true ↔
      (v₀ q = true ∨ ∃ t, 1 ≤ t ∧ t ≤ j ∧ q = (tStep n mn1)^[t] p)) →
    (∀ t, 1 ≤ t → t ≤ K →
      (tCycle n mn1 p fuel ((tStep n mn1)^[j] p) b v).1
        ((tStep n mn1)^[t] p) = b₀ ((tStep n mn1)^[t - 1] p)) ∧
    (∀ q, (∀ t, t ≤ K → q ≠ (tStep n mn1)^[t] p) →
      (tCycle n mn1 p fuel ((tStep n mn1)^[j] p) b v).1 q = b₀ q) ∧
    (∀ q, (tCycle n mn1 p fuel ((tStep n mn1)^[j] p) b v).2 q = true ↔
      (v₀ q = true ∨ ∃ t, 1 ≤ t ∧ t ≤ K ∧ q = (tStep n mn1)^[t] p)) := by
  intro fuel
  induction fuel with
  | zero =>
    intro j hj hfuel
    omega
  | succ fuel ih =>
    intro j hj hfuel b v hA hB hC hD
    have ha' : tStep n mn1 ((tStep n mn1)^[j] p) = (tStep n mn1)^[j + 1] p
      := (Function.iterate_succ_apply' (tStep n mn1) j p).symm
    by_cases hstop : (tStep n mn1)^[j + 1] p = p
    · have hjK : j + 1 = K := by
        by_contra hne
        exact hmin (j + 1) (by omega) (by omega) hstop
      rw [tCycle, ha', if_pos hstop]
      refine ⟨?_, ?_, ?_⟩
      · intro t h1 hK
        rw [hstop]
        have hred : (swapF b p p, fun k => if k = p then true else v k).1
            ((tStep n mn1)^[t] p) = b ((tStep n mn1)^[t] p) :=
          swapF_self b p ((tStep n mn1)^[t] p)
        rw [hred]
        rcases Nat.lt_or_ge t K with htK | htK
        · exact hA t h1 (by omega)
        · have ht : t = K := by omega
          rw [ht, hKp, hB]
          have : K - 1 = j := by omega
          rw [this]
      · intro q hq
        rw [hstop]
        have hred : (swapF b p p, fun k => if k = p then true else v k).1 q
            = b q := swapF_self b p q
        rw [hred]
        exact hC q fun t ht => hq t (by omega)
      · intro q
        rw [hstop]
        have hred : (swapF b p p, fun k => if k = p then true else v k).2 q
            = (if q = p then true else v q) := rfl
        rw [hred]
        constructor
        · intro hq
          by_cases hqp : q = p
          · exact Or.inr ⟨K, by omega, le_refl K, by rw [hKp]; exact hqp⟩
          · rw [if_neg hqp] at hq
            rcases (hD q).mp hq with hv | ⟨t, ht1, htj, hte⟩
            · exact Or.inl hv
            · exact Or.inr ⟨t, ht1, by omega, hte⟩
        · intro hq
          by_cases hqp : q = p
          · rw [if_pos hqp]
          · rw [if_neg hqp]
            rcases hq with hv | ⟨t, ht1, htK, hte⟩
            · exact (hD q).mpr (Or.inl hv)
            · have htK' : t < K := by
                rcases Nat.lt_or_ge t K with h | h
                · exact h
                · have ht : t = K := by omega
                  rw [ht, hKp] at hte
                  exact absurd hte hqp
              have htj : t ≤ j := by
                by_contra hgt
                have ht : t = j + 1 := by omega
                rw [ht] at hte
                rw [hte] at hqp
                exact hqp hstop
              exact (hD q).mpr (Or.inr ⟨t, ht1, htj, hte⟩)
    · have hjK : j + 1 < K := by
        rcases Nat.lt_or_ge (j + 1) K with h | h
        · exact h
        · have : j + 1 = K := by omega
          rw [this, hKp] at hstop
          exact absurd rfl hstop
      rw [tCycle, ha', if_neg hstop]
      refine ih (j + 1) hjK (by omega) _ _ ?_ ?_ ?_ ?_
      · intro t h1 ht
        rcases Nat.lt_or_ge t (j + 1) with htj | htj
        · have hne₁ : (tStep n mn1)^[t] p ≠ (tStep n mn1)^[j + 1] p :=
            hdist t (j + 1) htj hjK
          have hne₂ : (tStep n mn1)^[t] p ≠ p := hmin t (by omega)
            (by omega)
          rw [swapF_other _ _ _ _ hne₁ hne₂]
          exact hA t h1 (by omega)
        · have ht' : t = j + 1 := by omega
          rw [ht', swapF_fst, hB]
          have : j + 1 - 1 = j := by omega
          rw [this]
      · have hpne : p ≠ (tStep n mn1)^[j + 1] p := fun h =>
          hstop h.symm
        rw [swapF_snd _ _ _ hpne]
        refine hC ((tStep n mn1)^[j + 1] p) ?_
        intro t ht
        cases Nat.eq_zero_or_pos t with
        | inl ht0 =>
          rw [ht0]
          exact fun h => hstop (h.trans (Function.iterate_zero_apply _ _))
        | inr ht1 =>
          exact fun h => hdist t (j + 1) (by omega) hjK h.symm
      · intro q hq
        have hq₁ : q ≠ (tStep n mn1)^[j + 1] p := hq (j + 1) (le_refl _)
        have hq₂ : q ≠ p := hq 0 (by omega)
        rw [swapF_other _ _ _ _ hq₁ hq₂]
        exact hC q fun t ht => hq t (by omega)
      · intro q
        by_cases hqa : q = (tStep n mn1)^[j + 1] p
        · simp only [if_pos hqa, true_iff]
          exact Or.inr ⟨j + 1, by omega, le_refl _, hqa⟩
        · simp only [if_neg hqa]
          constructor
          · intro hq
            rcases (hD q).mp hq with hv | ⟨t, ht1, htj, hte⟩
            · exact Or.inl hv
            · exact Or.inr ⟨t, ht1, by omega, hte⟩
          · intro hq
            rcases hq with hv | ⟨t, ht1, htj, hte⟩
            · exact (hD q).mpr (Or.inl hv)
            · have htj' : t ≤ j := by
                by_contra hgt
                have ht : t = j + 1 := by omega
                rw [ht] at hte
                exact hqa hte
              exact (hD q).mpr (Or.inr ⟨t, ht1, htj', hte⟩)

lemma tStep_min_period {m n mn1 : Nat} (hmn : m * n = mn1 + 1) {p : Nat}
    (hp : p < mn1) :
    ∃ K, 0 < K ∧ K ≤ mn1 ∧ (tStep n mn1)^[K] p = p ∧
      (∀ t, 0 < t → t < K → (tStep n mn1)^[t] p ≠ p) ∧
      (∀ s t, s < t → t < K →
        (tStep n mn1)^[s] p ≠ (tStep n mn1)^[t] p) := by
  obtain ⟨K₀, hK₀, hK₀le, hK₀p⟩ := tStep_exists_period hmn hp
  have hex : ∃ K, 0 < K ∧ (tStep n mn1)^[K] p = p := ⟨K₀, hK₀, hK₀p⟩
  refine ⟨Nat.find hex, (Nat.find_spec hex).1,
    le_trans (Nat.find_min' hex ⟨hK₀, hK₀p⟩) hK₀le,
    (Nat.find_spec hex).2, ?_, ?_⟩
  · intro t ht0 htK hte
    exact Nat.find_min hex htK ⟨ht0, hte⟩
  · intro s t hst htK he
    have hts : (tStep n mn1)^[s] ((tStep n mn1)^[t - s] p)
        = (tStep n mn1)^[s] p := by
      rw [← Function.iterate_add_apply]
      have hadd : s + (t - s) = t := by omega
      rw [hadd]
      exact he.symm
    have hfix := tStep_iter_inj hmn (tStep_iter_lt hp (t - s)) hp s hts
    exact Nat.find_min hex (show t - s < Nat.find hex by omega)
      ⟨by omega, hfix⟩

lemma tInv_zero {m mn1 : Nat} (h : 0 < mn1) : tInv m mn1 0 = 0 := by
  unfold tInv
  rw [if_neg (by omega)]
  simp

lemma tInv_iter_zero {m mn1 : Nat} (h : 0 < mn1) :
    ∀ t, (tInv m mn1)^[t] 0 = 0 := by
  intro t
  induction t with
  | zero => rfl
  | succ t ih =>
    rw [Function.iterate_succ_apply, tInv_zero h]
    exact ih

lemma tInv_tStep_iter {m n mn1 : Nat} (hmn : m * n = mn1 + 1) {p : Nat}
    (hp : p < mn1) {t : Nat} (ht : 1 ≤ t) :
    tInv m mn1 ((tStep n mn1)^[t] p) = (tStep n mn1)^[t - 1] p := by
  have h1 : (tStep n mn1)^[t] p
      = tStep n mn1 ((tStep n mn1)^[t - 1] p) := by
    conv_lhs => rw [show t = (t - 1) + 1 by omega]
    rw [Function.iterate_succ_apply']
  rw [h1, tInv_tStep hmn (tStep_iter_lt hp (t - 1))]

lemma visited_tInv_iter {m mn1 : Nat} {v : Nat → Bool}
    (hcl : ∀ q, v q = true → v (tInv m mn1 q) = true) :
    ∀ s q, v q = true → v ((tInv m mn1)^[s] q) = true := by
  intro s
  induction s with
  | zero => intro q h; exact h
  | succ s ih =>
    intro q h
    rw [Function.iterate_succ_apply]
    exact ih _ (hcl q h)

lemma tOuter_nil {α : Type*} (n mn1 : Nat) (b : Nat → α)
    (v : Nat → Bool) : tOuter n mn1 [] b v = (b, v) := rfl

lemma tOuter_cons {α : Type*} (n mn1 p : Nat) (ps : List Nat)
    (b : Nat → α) (v : Nat → Bool) :
    tOuter n mn1 (p :: ps) b v =
      if v p then tOuter n mn1 ps b v
      else tOuter n mn1 ps (tCycle n mn1 p (mn1 + 1) p b v).1
        (tCycle n mn1 p (mn1 + 1) p b v).2 := rfl

/-- The last row-major index r*n+c (with r < m, c < n) equals m*n-1
exactly for the bottom-right element (r, c) = (m-1, n-1). -/
lemma index_last {m n mn1 r c : Nat} (hmn : m * n = mn1 + 1) (hr : r < m)
    (hc : c < n) : r * n + c = mn1 ↔ r + 1 = m ∧ c + 1 = n := by
  have h4 : (r + 1) * n = r * n + n := by ring
  constructor
  · intro h
    have hn0 : 0 < n := by omega
    have h2 : m * n ≤ (r + 1) * n := by omega
    have h3 : m ≤ r + 1 := Nat.le_of_mul_le_mul_right h2 hn0
    have hrm : r + 1 = m := by omega
    rw [hrm] at h4
    omega
  · rintro ⟨hrm, hcn⟩
    rw [hrm] at h4
    omega

/-- The inverse permutation sends the row-major index r*n+c of the
output to the row-major index c*m+r of the input ((m*q) mod (m*n-1)),
away from the fixed last element. -/
lemma tInv_index {m n mn1 r c : Nat} (hmn : m * n = mn1 + 1) (hr : r < m)
    (hc : c < n) (hne : r * n + c ≠ mn1) :
    tInv m mn1 (r * n + c) = c * m + r := by
  unfold tInv
  rw [if_neg hne]
  have hkey : m * (r * n + c) = (c * m + r) + r * mn1 := by
    have h1 : m * (r * n + c) = r * (m * n) + c * m := by ring
    rw [hmn] at h1
    have h2 : r * (mn1 + 1) + c * m = (c * m + r) + r * mn1 := by ring
    omega
  rw [hkey, Nat.add_mul_mod_self_right]
  have hlt : c * m + r < mn1 := by
    have h1 : (c + 1) * m ≤ n * m :=
      mul_le_mul_right' (Nat.succ_le_of_lt hc) m
    have h2 : (c + 1) * m = c * m + m := by ring
    have h3 : n * m = mn1 + 1 := by rw [Nat.mul_comm]; exact hmn
    have hle : c * m + r ≤ mn1 := by omega
    rcases Nat.lt_or_ge (c * m + r) mn1 with h | h
    · exact h
    · have heq : c * m + r = mn1 := by omega
      have hcn := (index_last h3 hc hr).mp heq
      exact absurd ((index_last hmn hr hc).mpr ⟨hcn.2, hcn.1⟩) hne
  exact Nat.mod_eq_of_lt hlt

/-- Processing one unvisited cycle start p preserves the outer-loop
invariant: visited positions hold the inverse-permuted original, the
rest are untouched, the visited set is closed under the permutation and
its inverse and stays within [1, mn1]; afterwards p itself is visited,
and the visited set only grows. -/
lemma tCycle_pivot {α : Type*} (m n mn1 : Nat) (hmn : m * n = mn1 + 1)
    (b₀ : Nat → α) (p : Nat) (hp1 : 1 ≤ p) (hpK : p ≤ mn1)
    (b : Nat → α) (v : Nat → Bool) (hvp : v p = false)
    (I1 : ∀ q, v q = true → b q = b₀ (tInv m mn1 q))
    (I2 : ∀ q, v q = false → b q = b₀ q)
    (I3 : ∀ q, v q = true → 1 ≤ q ∧ q ≤ mn1 ∧
      v (tStep n mn1 q) = true ∧ v (tInv m mn1 q) = true) :
    (∀ q, (tCycle n mn1 p (mn1 + 1) p b v).2 q = true →
      (tCycle n mn1 p (mn1 + 1) p b v).1 q = b₀ (tInv m mn1 q)) ∧
    (∀ q, (tCycle n mn1 p (mn1 + 1) p b v).2 q = false →
      (tCycle n mn1 p (mn1 + 1) p b v).1 q = b₀ q) ∧
    (∀ q, (tCycle n mn1 p (mn1 + 1) p b v).2 q = true →
      1 ≤ q ∧ q ≤ mn1 ∧
      (tCycle n mn1 p (mn1 + 1) p b v).2 (tStep n mn1 q) = true ∧
      (tCycle n mn1 p (mn1 + 1) p b v).2 (tInv m mn1 q) = true) ∧
    (tCycle n mn1 p (mn1 + 1) p b v).2 p = true ∧
    (∀ q, v q = true → (tCycle n mn1 p (mn1 + 1) p b v).2 q = true) := by
  rcases eq_or_lt_of_le hpK with hpe | hp'
  · -- the fixed point p = mn1: a single self-swap iteration
    subst hpe
    have hstepp : tStep n p p = p := by
      unfold tStep
      rw [if_pos rfl]
    have hinvp : tInv m p p = p := by
      unfold tInv
      rw [if_pos rfl]
    have hr : tCycle n p p (p + 1) p b v =
        if tStep n p p = p then
          (swapF b (tStep n p p) p,
           fun k => if k = tStep n p p then true else v k)
        else
          tCycle n p p p (tStep n p p) (swapF b (tStep n p p) p)
            (fun k => if k = tStep n p p then true else v k) := rfl
    rw [hstepp, if_pos rfl] at hr
    have hr1 : ∀ x, (tCycle n p p (p + 1) p b v).1 x = b x := by
      intro x
      rw [hr]
      exact swapF_self b p x
    have hr2 : ∀ x, (tCycle n p p (p + 1) p b v).2 x
        = (if x = p then true else v x) := by
      intro x
      rw [hr]
    refine ⟨?_, ?_, ?_, ?_, ?_⟩
    · intro q hq
      rw [hr2 q] at hq
      rw [hr1 q]
      by_cases hqp : q = p
      · subst hqp
        rw [hinvp]
        exact I2 q hvp
      · rw [if_neg hqp] at hq
        exact I1 q hq
    · intro q hq
      rw [hr2 q] at hq
      rw [hr1 q]
      by_cases hqp : q = p
      · rw [if_pos hqp] at hq
        cases hq
      · rw [if_neg hqp] at hq
        exact I2 q hq
    · intro q hq
      rw [hr2 q] at hq
      by_cases hqp : q = p
      · subst hqp
        refine ⟨hp1, le_refl q, ?_, ?_⟩
        · rw [hr2, hstepp, if_pos rfl]
        · rw [hr2, hinvp, if_pos rfl]
      · rw [if_neg hqp] at hq
        obtain ⟨h1, h2, h3, h4⟩ := I3 q hq
        refine ⟨h1, h2, ?_, ?_⟩
        · rw [hr2]
          by_cases hsp : tStep n p q = p
          · rw [if_pos hsp]
          · rw [if_neg hsp]
            exact h3
        · rw [hr2]
          by_cases hip : tInv m p q = p
          · rw [if_pos hip]
          · rw [if_neg hip]
            exact h4
    · rw [hr2, if_pos rfl]
    · intro q hq
      rw [hr2]
      by_cases hqp : q = p
      · rw [if_pos hqp]
      · rw [if_neg hqp]
        exact hq
  · -- a genuine cycle: run tCycle_spec on the minimal period of p
    obtain ⟨K, hK1, hKle, hKp, hmin, hdist⟩ := tStep_min_period hmn hp'
    -- no element of the cycle of p is visited on entry
    have hcu : ∀ t, v ((tStep n mn1)^[t] p) = false := by
      intro t
      cases hvt : v ((tStep n mn1)^[t] p) with
      | false => rfl
      | true =>
        have hdown := visited_tInv_iter
          (fun q hq => (I3 q hq).2.2.2) t _ hvt
        rw [tInv_iter_tStep_iter hmn hp' t] at hdown
        rw [hdown] at hvp
        cases hvp
    have hA : ∀ t, 1 ≤ t → t ≤ 0 →
        b ((tStep n mn1)^[t] p) = b ((tStep n mn1)^[t - 1] p) :=
      fun t h1 h0 => absurd h0 (by omega)
    have hB : b p = b ((tStep n mn1)^[0] p) := rfl
    have hC : ∀ q, (∀ t, t ≤ 0 → q ≠ (tStep n mn1)^[t] p) → b q = b q :=
      fun q _ => rfl
    have hD : ∀ q, v q = true ↔
        (v q = true ∨ ∃ t, 1 ≤ t ∧ t ≤ 0 ∧ q = (tStep n mn1)^[t] p) := by
      intro q
      constructor
      · exact Or.inl
      · rintro (h | ⟨t, ht1, ht0, _⟩)
        · exact h
        · omega
    obtain ⟨G1, G2, G3⟩ := tCycle_spec n mn1 p K b v hKp hmin hdist
      (mn1 + 1) 0 hK1 (by omega) b v hA hB hC hD
    simp only [Function.iterate_zero_apply] at G1 G2 G3
    refine ⟨?_, ?_, ?_, ?_, ?_⟩
    · intro q hq
      rcases (G3 q).mp hq with hv | ⟨t, ht1, htK, hqe⟩
      · have hnc : ∀ t, t ≤ K → q ≠ (tStep n mn1)^[t] p := by
          intro t _ hqe
          rw [hqe, hcu t] at hv
          cases hv
        rw [G2 q hnc]
        exact I1 q hv
      · subst hqe
        rw [G1 t ht1 htK, tInv_tStep_iter hmn hp' ht1]
        exact I2 _ (hcu (t - 1))
    · intro q hq
      have hnot : ¬(v q = true ∨
          ∃ t, 1 ≤ t ∧ t ≤ K ∧ q = (tStep n mn1)^[t] p) := by
        intro h
        rw [(G3 q).mpr h] at hq
        cases hq
      push_neg at hnot
      obtain ⟨hv, hnc⟩ := hnot
      have hvq : v q = false := by
        cases hvv : v q with
        | false => rfl
        | true => exact absurd hvv hv
      have hnc' : ∀ t, t ≤ K → q ≠ (tStep n mn1)^[t] p := by
        intro t htK hqe
        cases Nat.eq_zero_or_pos t with
        | inl h0 =>
          subst h0
          exact hnc K hK1 (le_refl K)
            (hqe.trans ((Function.iterate_zero_apply _ _).trans hKp.symm))
        | inr hpos => exact hnc t hpos htK hqe
      rw [G2 q hnc']
      exact I2 q hvq
    · intro q hq
      rcases (G3 q).mp hq with hv | ⟨t, ht1, htK, hqe⟩
      · obtain ⟨h1, h2, h3, h4⟩ := I3 q hv
        exact ⟨h1, h2, (G3 _).mpr (Or.inl h3), (G3 _).mpr (Or.inl h4)⟩
      · subst hqe
        refine ⟨?_, ?_, ?_, ?_⟩
        · by_contra h0
          have h0' : (tStep n mn1)^[t] p = 0 := by omega
          have hback := tInv_iter_tStep_iter hmn hp' t
          rw [h0', tInv_iter_zero (by omega) t] at hback
          omega
        · exact le_of_lt (tStep_iter_lt hp' t)
        · rcases Nat.lt_or_ge t K with htlt | htge
          · refine (G3 _).mpr (Or.inr ⟨t + 1, by omega, by omega, ?_⟩)
            rw [Function.iterate_succ_apply']
          · have hte : t = K := by omega
            refine (G3 _).mpr (Or.inr ⟨1, le_refl 1, by omega, ?_⟩)
            rw [hte, hKp, Function.iterate_one]
        · rw [tInv_tStep_iter hmn hp' ht1]
          rcases Nat.lt_or_ge 1 t with ht2 | ht2
          · exact (G3 _).mpr (Or.inr ⟨t - 1, by omega, by omega, rfl⟩)
          · have hte : t = 1 := by omega
            refine (G3 _).mpr (Or.inr ⟨K, hK1, le_refl K, ?_⟩)
            rw [hte]
            exact ((Function.iterate_zero_apply _ _).trans hKp.symm)
    · exact (G3 p).mpr (Or.inr ⟨K, hK1, le_refl K, hKp.symm⟩)
    · intro q hq
      exact (G3 q).mpr (Or.inl hq)

/-- The outer while loop of transposeBlock: starting from a state
satisfying the invariant, after processing the remaining cycle starts
every visited position holds the inverse-permuted original, unvisited
positions are untouched, visited positions stay visited, and every
processed cycle start ends up visited. -/
lemma tOuter_invariant {α : Type*} (m n mn1 : Nat)
    (hmn : m * n = mn1 + 1) (b₀ : Nat → α) :
    ∀ (ps : List Nat) (b : Nat → α) (v : Nat → Bool),
    (∀ q ∈ ps, 1 ≤ q ∧ q ≤ mn1) →
    (∀ q, v q = true → b q = b₀ (tInv m mn1 q)) →
    (∀ q, v q = false → b q = b₀ q) →
    (∀ q, v q = true → 1 ≤ q ∧ q ≤ mn1 ∧
      v (tStep n mn1 q) = true ∧ v (tInv m mn1 q) = true) →
    (∀ q, (tOuter n mn1 ps b v).2 q = true →
      (tOuter n mn1 ps b v).1 q = b₀ (tInv m mn1 q)) ∧
    (∀ q, (tOuter n mn1 ps b v).2 q = false →
      (tOuter n mn1 ps b v).1 q = b₀ q) ∧
    (∀ q, v q = true → (tOuter n mn1 ps b v).2 q = true) ∧
    (∀ q ∈ ps, (tOuter n mn1 ps b v).2 q = true) := by
  intro ps
  induction ps with
  | nil =>
    intro b v hbounds I1 I2 I3
    rw [tOuter_nil]
    exact ⟨I1, I2, fun q h => h, fun q h => absurd h (List.not_mem_nil q)⟩
  | cons p ps ih =>
    intro b v hbounds I1 I2 I3
    rw [tOuter_cons]
    by_cases hvp : v p = true
    · rw [if_pos hvp]
      obtain ⟨J1, J2, J3, J4⟩ := ih b v
        (fun q hq => hbounds q (List.mem_cons_of_mem _ hq)) I1 I2 I3
      refine ⟨J1, J2, J3, ?_⟩
      intro q hq
      rcases List.mem_cons.mp hq with hqp | hqm
      · rw [hqp]
        exact J3 p hvp
      · exact J4 q hqm
    · have hvp' : v p = false := by
        cases h : v p with
        | false => rfl
        | true => exact absurd h hvp
      rw [if_neg hvp]
      obtain ⟨P1, P2, P3, P4, P5⟩ := tCycle_pivot m n mn1 hmn b₀ p
        (hbounds p (List.mem_cons_self p ps)).1
        (hbounds p (List.mem_cons_self p ps)).2 b v hvp' I1 I2 I3
      obtain ⟨J1, J2, J3, J4⟩ := ih _ _
        (fun q hq => hbounds q (List.mem_cons_of_mem _ hq)) P1 P2 P3
      refine ⟨J1, J2, fun q hq => J3 q (P5 q hq), ?_⟩
      intro q hq
      rcases List.mem_cons.mp hq with hqp | hqm
      · rw [hqp]
        exact J3 p P4
      · exact J4 q hqm

/-- C7: transposeBlock(first, last, m, vsize) transposes the m-row
matrix of vsize-byte elements in place by following the cycles of the
index permutation i -> (n*i) mod (m*n - 1) with n = total/m: afterwards
the element at row-major position (r, c) of the n-column output is the
input element at row-major position (c, r) of the m-column layout,
i.e. the buffer holds the row-major layout of the transposed (formerly
column-major-read) m x n input; for m = 1 or n = 1 the buffer is left
unchanged. -/
theorem transposeBlock_transposes {α : Type} (m n total : Nat)
    (hm : 0 < m) (hn : 0 < n) (ht : total = m * n) (b : Nat → α) :
    (∀ r c, r < m → c < n →
      transposeBlock m total b (r * n + c) = b (c * m + r)) ∧
    ((m = 1 ∨ n = 1) →
      ∀ q, q < total → transposeBlock m total b q = b q) := by
  have htm : total / m = n := by
    rw [ht, Nat.mul_div_cancel_left n hm]
  have htpos : 1 ≤ total := by
    have := Nat.mul_pos hm hn
    omega
  have hmn' : m * n = (total - 1) + 1 := by omega
  have hTB : ∀ q, transposeBlock m total b q =
      (tOuter n (total - 1) (List.range' 1 (total - 1)) b
        (fun _ => false)).1 q := by
    intro q
    unfold transposeBlock
    rw [htm]
  obtain ⟨J1, J2, J3, J4⟩ := tOuter_invariant m n (total - 1) hmn' b
    (List.range' 1 (total - 1)) b (fun _ => false)
    (fun q hq => by
      rw [List.mem_range'_1] at hq
      omega)
    (fun q h => absurd h Bool.false_ne_true)
    (fun q _ => rfl)
    (fun q h => absurd h Bool.false_ne_true)
  have hmain : ∀ r c, r < m → c < n →
      transposeBlock m total b (r * n + c) = b (c * m + r) := by
    intro r c hr hc
    have hq : r * n + c < total := by
      have h1 : (r + 1) * n ≤ m * n :=
        mul_le_mul_right' (Nat.succ_le_of_lt hr) n
      have h2 : (r + 1) * n = r * n + n := by ring
      omega
    by_cases hq0 : r * n + c = 0
    · have hc0 : c = 0 := by omega
      have hrn : r * n = 0 := by omega
      have hr0 : r = 0 := by
        rcases Nat.mul_eq_zero.mp hrn with h | h
        · exact h
        · omega
      subst hc0
      subst hr0
      simp only [Nat.zero_mul, Nat.add_zero]
      rw [hTB]
      cases hv0 : (tOuter n (total - 1) (List.range' 1 (total - 1)) b
          (fun _ => false)).2 0 with
      | false => exact J2 0 hv0
      | true =>
        rw [J1 0 hv0]
        congr 1
        unfold tInv
        by_cases h0 : (0 : Nat) = total - 1
        · rw [if_pos h0]
          omega
        · rw [if_neg h0]
          simp
    · have hmem : r * n + c ∈ List.range' 1 (total - 1) := by
        rw [List.mem_range'_1]
        omega
      have hvq := J4 _ hmem
      rw [hTB, J1 _ hvq]
      congr 1
      by_cases hqm : r * n + c = total - 1
      · have hpair := (index_last hmn' hr hc).mp hqm
        have hcm : c * m + r = total - 1 :=
          (index_last (show n * m = (total - 1) + 1 by
            rw [Nat.mul_comm]; exact hmn') hc hr).mpr ⟨hpair.2, hpair.1⟩
        rw [hqm, hcm]
        unfold tInv
        rw [if_pos rfl]
      · exact tInv_index hmn' hr hc hqm
  refine ⟨hmain, ?_⟩
  intro hdeg q hq
  rcases hdeg with hm1 | hn1
  · subst hm1
    have h1 := hmain 0 q (by omega) (by omega)
    simp only [Nat.zero_mul, Nat.zero_add, Nat.mul_one, Nat.add_zero]
      at h1
    exact h1
  · subst hn1
    have h1 := hmain q 0 (by omega) (by omega)
    simp only [Nat.mul_one, Nat.add_zero, Nat.zero_mul, Nat.zero_add]
      at h1
    exact h1

/-- Closed witness for transposeBlock_transposes: transposing the 2 x 3
block of naturals 0..5 places at output row-major position (0, 1) of
the 3-column layout the input element at position (1, 0) of the
2-column layout. -/
theorem transposeBlock_transposes_witness :
    transposeBlock 2 6 (fun i => i) (0 * 3 + 1) =
      (fun i : Nat => i) (1 * 2 + 0) :=
  (transposeBlock_transposes 2 3 6 (by decide) (by decide) (by decide)
    (fun i => i)).1 0 1 (by decide) (by decide)

end TdbHdf5
